import Mathlib

/-!
Verification of the `tl_mbox` shared-memory mailbox subsystem of the
`stm32wb55xx-hal` repository, against its natural-language specification.

The development shallow-embeds the relevant source modules:

* `src/tl_mbox/unsafe_linked_list.rs` — the intrusive circular doubly linked
  list.  Shared memory holding list nodes is modelled as a total function from
  addresses (`Nat`) to nodes (a pair of `next`/`prev` addresses); every Rust
  statement that stores through a pointer becomes a pointwise function update,
  in the exact order the source performs the stores.
* `src/tl_mbox/mm.rs` — the memory manager (`evt_drop`, `send_free_buf`,
  `free_buf_handler`).
* `src/tl_mbox/ble.rs` — the BLE endpoint (`send_cmd`, `evt_handler`).
* `src/tl_mbox.rs` — `TlMbox::tl_init` and the static tables.

The IPCC channel-driver collaborator (`crate::ipcc`, not part of the sources
under verification) is modelled from the specification's collaborator
contract; it is the only spec-modelled component.
-/


/-- A list node as laid out in `unsafe_linked_list.rs`: the two self-relative
addresses `next` and `prev`. -/
structure LNode where
  next : Nat
  prev : Nat
deriving DecidableEq, Repr

/-- Shared node memory: a total map from addresses to nodes. -/
abbrev Mem := Nat → LNode

/-- Store a whole node at an address. -/
def store (m : Mem) (a : Nat) (v : LNode) : Mem :=
  fun x => if x = a then v else m x

/-- `(*a).next = v` -/
def setNext (m : Mem) (a v : Nat) : Mem :=
  store m a ⟨v, (m a).prev⟩

/-- `(*a).prev = v` -/
def setPrev (m : Mem) (a v : Nat) : Mem :=
  store m a ⟨(m a).next, v⟩

/-- `init_head` from `unsafe_linked_list.rs`: `head.next = head; head.prev = head`. -/
def init_head (m : Mem) (head : Nat) : Mem :=
  setPrev (setNext m head head) head head

/-- `is_empty` from `unsafe_linked_list.rs`: `head.next == head`. -/
def is_empty (m : Mem) (head : Nat) : Bool :=
  (m head).next == head

/-- `insert_head` from `unsafe_linked_list.rs`, statement by statement. -/
def insert_head (m : Mem) (head node : Nat) : Mem :=
  let m1 := setNext m node ((m head).next)
  let m2 := setPrev m1 node head
  let m3 := setNext m2 head node
  setPrev m3 ((m3 node).next) node

/-- `insert_tail` from `unsafe_linked_list.rs`, statement by statement. -/
def insert_tail (m : Mem) (head node : Nat) : Mem :=
  let m1 := setNext m node head
  let m2 := setPrev m1 node ((m1 head).prev)
  let m3 := setPrev m2 head node
  setNext m3 ((m3 node).prev) node

/-- `remove_node` from `unsafe_linked_list.rs`, statement by statement. -/
def remove_node (m : Mem) (node : Nat) : Mem :=
  let m1 := setNext m ((m node).prev) ((m node).next)
  setPrev m1 ((m1 node).next) ((m1 node).prev)

/-- `remove_head` from `unsafe_linked_list.rs`: writes `head.next` to the out
parameter (second component) and unlinks that node. -/
def remove_head (m : Mem) (head : Nat) : Mem × Nat :=
  (remove_node m ((m head).next), (m head).next)

/-- `remove_tail` from `unsafe_linked_list.rs`. -/
def remove_tail (m : Mem) (head : Nat) : Mem × Nat :=
  (remove_node m ((m head).prev), (m head).prev)

/-- `insert_node_after` from `unsafe_linked_list.rs`, statement by statement. -/
def insert_node_after (m : Mem) (node ref : Nat) : Mem :=
  let m1 := setNext m node ((m ref).next)
  let m2 := setPrev m1 node ref
  let m3 := setNext m2 ref node
  setPrev m3 ((m3 node).next) node

/-- `insert_node_before` from `unsafe_linked_list.rs`, statement by statement. -/
def insert_node_before (m : Mem) (node ref : Nat) : Mem :=
  let m1 := setNext m node ref
  let m2 := setPrev m1 node ((m1 ref).prev)
  let m3 := setPrev m2 ref node
  setNext m3 ((m3 node).prev) node

/-- The `while temp != list_head` loop of `get_size`, with explicit fuel for
the unbounded source loop. -/
def get_size_loop (m : Mem) (head : Nat) : Nat → Nat → Nat
  | 0, _ => 0
  | fuel + 1, t => if t = head then 0 else 1 + get_size_loop m head fuel ((m t).next)

/-- `get_size` from `unsafe_linked_list.rs`: counts nodes from `head.next`
until the walk returns to `head` (or fuel runs out). -/
def get_size (m : Mem) (head : Nat) (fuel : Nat) : Nat :=
  get_size_loop m head fuel ((m head).next)

/-- The nodes visited by following `next` from `t` until reaching `head`
(exclusive), with fuel. -/
def walk (m : Mem) (head : Nat) : Nat → Nat → List Nat
  | 0, _ => []
  | fuel + 1, t => if t = head then [] else t :: walk m head fuel ((m t).next)

/-- The reachable nodes of the list rooted at `head`: the head itself plus the
`next`-walk starting at `head.next`. -/
def reachable (m : Mem) (head fuel : Nat) : List Nat :=
  head :: walk m head fuel ((m head).next)

/-- `chainB m a xs b`: following `next` from `a` passes exactly through `xs`
and ends at `b`, with every `prev` pointer matching the predecessor. -/
def chainB (m : Mem) : Nat → List Nat → Nat → Bool
  | a, [], b => (m a).next == b && (m b).prev == a
  | a, x :: xs, b => (m a).next == x && (m x).prev == a && chainB m x xs b

/-- The representation invariant of the intrusive circular list: distinct
addresses and a doubly linked cycle `head → xs… → head`. -/
def IsList (m : Mem) (head : Nat) (xs : List Nat) : Prop :=
  (head :: xs).Nodup ∧ chainB m head xs head = true

instance (m : Mem) (head : Nat) (xs : List Nat) : Decidable (IsList m head xs) := by
  unfold IsList; infer_instance

/-- The last element of `d :: xs`. -/
def lastD (d : Nat) : List Nat → Nat
  | [] => d
  | x :: xs => lastD x xs

/-- The mutating list operations of `unsafe_linked_list.rs`, as data, for
reasoning about arbitrary operation sequences on one list. -/
inductive LLOp where
  | insHead (n : Nat)
  | insTail (n : Nat)
  | insAfter (n ref : Nat)
  | insBefore (n ref : Nat)
  | rmHead
  | rmTail
  | rmNode (n : Nat)
deriving DecidableEq, Repr

/-- Run one operation's source code on the memory (the list head is fixed). -/
def applyOp (head : Nat) (m : Mem) : LLOp → Mem
  | .insHead n => insert_head m head n
  | .insTail n => insert_tail m head n
  | .insAfter n ref => insert_node_after m n ref
  | .insBefore n ref => insert_node_before m n ref
  | .rmHead => (remove_head m head).1
  | .rmTail => (remove_tail m head).1
  | .rmNode n => remove_node m n

/-- Splice `n` in just after the (unique) occurrence of `ref`. -/
def spliceAfter (ref n : Nat) : List Nat → List Nat
  | [] => []
  | x :: t => if x = ref then x :: n :: t else x :: spliceAfter ref n t

/-- Splice `n` in just before the (unique) occurrence of `ref`. -/
def spliceBefore (ref n : Nat) : List Nat → List Nat
  | [] => []
  | x :: t => if x = ref then n :: x :: t else x :: spliceBefore ref n t

/-- The same operation on the abstract member list. -/
def applyAbs (head : Nat) (xs : List Nat) : LLOp → List Nat
  | .insHead n => n :: xs
  | .insTail n => xs ++ [n]
  | .insAfter n ref => if ref = head then n :: xs else spliceAfter ref n xs
  | .insBefore n ref => if ref = head then xs ++ [n] else spliceBefore ref n xs
  | .rmHead => xs.tail
  | .rmTail => xs.dropLast
  | .rmNode n => xs.erase n

/-- Operation preconditions: inserted nodes belong to no list, removals only
target members (and only non-empty lists), splice references are members. -/
def opOkB (head : Nat) (xs : List Nat) : LLOp → Bool
  | .insHead n => decide (n ∉ head :: xs)
  | .insTail n => decide (n ∉ head :: xs)
  | .insAfter n ref => decide (n ∉ head :: xs) && decide (ref ∈ head :: xs)
  | .insBefore n ref => decide (n ∉ head :: xs) && decide (ref ∈ head :: xs)
  | .rmHead => !xs.isEmpty
  | .rmTail => !xs.isEmpty
  | .rmNode n => decide (n ∈ xs)

/-- Run a sequence of operations on the memory. -/
def memExec (head : Nat) (m : Mem) : List LLOp → Mem
  | [] => m
  | op :: ops => memExec head (applyOp head m op) ops

/-- Run a sequence of operations on the abstract member list. -/
def absExec (head : Nat) (xs : List Nat) : List LLOp → List Nat
  | [] => xs
  | op :: ops => absExec head (applyAbs head xs op) ops

/-- All operations of the sequence satisfy their preconditions when they run. -/
def legalB (head : Nat) (xs : List Nat) : List LLOp → Bool
  | [] => true
  | op :: ops => opOkB head xs op && legalB head (applyAbs head xs op) ops

/-- Insert each node of `ns`, in order, with `insert_tail`. -/
def insertAllTail (m : Mem) (head : Nat) (ns : List Nat) : Mem :=
  ns.foldl (fun mm n => insert_tail mm head n) m

/-- Insert each node of `ns`, in order, with `insert_head`. -/
def insertAllHead (m : Mem) (head : Nat) (ns : List Nat) : Mem :=
  ns.foldl (fun mm n => insert_head mm head n) m

/-- Call `remove_head` `k` times, collecting the returned nodes in order. -/
def removeAllHead (m : Mem) (head : Nat) : Nat → Mem × List Nat
  | 0 => (m, [])
  | k + 1 =>
      let r := remove_head m head
      let rest := removeAllHead r.1 head k
      (rest.1, r.2 :: rest.2)

/-- The IPCC channels, mirroring `IpccChannel` of `crate::ipcc`. -/
inductive IpccChannel where
  | channel1
  | channel2
  | channel3
  | channel4
  | channel5
  | channel6
deriving DecidableEq, Repr

namespace c1

/-- Host→peer channel purposes, from `src/tl_mbox/channel.rs` (`mod c1`). -/
def IPCC_BLE_CMD_CHANNEL : IpccChannel := .channel1

def IPCC_SYSTEM_CMD_RSP_CHANNEL : IpccChannel := .channel2

def IPCC_THREAD_OT_CMD_RSP_CHANNEL : IpccChannel := .channel3

def IPCC_MM_RELEASE_BUFFER_CHANNEL : IpccChannel := .channel4

def IPCC_HCI_ACL_DATA_CHANNEL : IpccChannel := .channel6

end c1

namespace c2

/-- Peer→host channel purposes, from `src/tl_mbox/channel.rs` (`mod c2`). -/
def IPCC_BLE_EVENT_CHANNEL : IpccChannel := .channel1

def IPCC_SYSTEM_EVENT_CHANNEL : IpccChannel := .channel2

def IPCC_THREAD_NOTIFICATION_ACK_CHANNEL : IpccChannel := .channel3

def IPCC_TRACES_CHANNEL : IpccChannel := .channel4

def IPCC_THREAD_CLI_NOTIFICATION_ACK_CHANNEL : IpccChannel := .channel5

end c2

/-- Modelled from the spec: the channel-driver collaborator state.  The
source's `crate::ipcc` module is not among the files under verification; the
spec's collaborator contract gives, per (direction, channel id), `ring()`,
`is_busy()`, `enable(bool)` and `clear()` over one-bit flags.  The model keeps
the outbound (host→peer) flags, the outbound direction-enable bits, the inbound
(peer→host) flags, the inbound receive-enable bits, and — as the observable the
coalescing claims speak about — a count of rings per outbound channel. -/
structure IpccSt where
  c1Flag : IpccChannel → Bool
  c1Tx : IpccChannel → Bool
  c2Flag : IpccChannel → Bool
  c2Rx : IpccChannel → Bool
  c1Rings : IpccChannel → Nat

def updB (f : IpccChannel → Bool) (c : IpccChannel) (v : Bool) : IpccChannel → Bool :=
  fun x => if x = c then v else f x

def updN (f : IpccChannel → Nat) (c : IpccChannel) (v : Nat) : IpccChannel → Nat :=
  fun x => if x = c then v else f x

/-- Modelled from the spec: ring a host→peer channel (sets its flag; the model
also counts the ring). -/
def c1_set_flag_channel (s : IpccSt) (c : IpccChannel) : IpccSt :=
  { s with
    c1Flag := updB s.c1Flag c true
    c1Rings := updN s.c1Rings c (s.c1Rings c + 1) }

/-- Modelled from the spec: query whether a host→peer channel's flag is still
set (the channel is busy until the peer clears it). -/
def c1_is_active_flag (s : IpccSt) (c : IpccChannel) : Bool :=
  s.c1Flag c

/-- Modelled from the spec: enable or disable a host→peer channel's transmit
direction (the memory manager uses it as its pending-work mark). -/
def c1_set_tx_channel (s : IpccSt) (c : IpccChannel) (v : Bool) : IpccSt :=
  { s with c1Tx := updB s.c1Tx c v }

/-- Modelled from the spec: the host clears a peer→host channel's flag after
processing it. -/
def c1_clear_flag_channel (s : IpccSt) (c : IpccChannel) : IpccSt :=
  { s with c2Flag := updB s.c2Flag c false }

/-- Modelled from the spec: enable or disable reception on a peer→host
channel. -/
def c1_set_rx_channel (s : IpccSt) (c : IpccChannel) (v : Bool) : IpccSt :=
  { s with c2Rx := updB s.c2Rx c v }

/-- Modelled from the spec: the peer acknowledges a host ring by clearing the
outbound channel flag (the only way a host→peer channel frees). -/
def peer_clear_flag (s : IpccSt) (c : IpccChannel) : IpccSt :=
  { s with c1Flag := updB s.c1Flag c false }

/-- Link-time addresses of the mailbox statics of `src/tl_mbox.rs`.  Their
numeric values are linker-chosen; the model only relies on their being
distinct, fixed and nonzero (a zeroed pointer field reads as 0 = null). -/
def addrDeviceInfoTable : Nat := 1

def addrBleTable : Nat := 2

def addrThreadTable : Nat := 3

def addrSysTable : Nat := 4

def addrMemManagerTable : Nat := 5

def addrTracesTable : Nat := 6

def addrMac802_15_4Table : Nat := 7

def addrZigbeeTable : Nat := 8

def addrLldTestsTable : Nat := 9

def addrBleLldTable : Nat := 10

def addrFreeBufQueue : Nat := 11

def addrTracesEvtQueue : Nat := 12

def addrCsBuffer : Nat := 13

def addrEvtQueue : Nat := 14

def addrSystemEvtQueue : Nat := 15

def addrLocalFreeBufQueue : Nat := 16

def addrEvtPool : Nat := 17

def addrSysCmdBuffer : Nat := 18

def addrSysSpareEvtBuf : Nat := 19

def addrBleSpareEvtBuf : Nat := 20

def addrBleCmdBuffer : Nat := 21

def addrHciAclDataBuffer : Nat := 22

/-- Combined state for the memory-manager functions of `mm.rs`: the shared
node memory and the channel driver. -/
structure MmState where
  mem : Mem
  ipcc : IpccSt

/-- `send_free_buf` from `mm.rs`: while the local free queue is non-empty,
`remove_head` from it and `insert_tail` onto the shared free queue (the queue
`TL_MEM_MANAGER_TABLE.pevt_free_buffer_queue` points to, which
`MemoryManager::new` set to `FREE_BUF_QUEUE`).  The source's `while` loop gets
explicit fuel. -/
def send_free_buf (fuel : Nat) (m : Mem) : Mem :=
  match fuel with
  | 0 => m
  | fuel + 1 =>
      if is_empty m addrLocalFreeBufQueue then m
      else
        let r := remove_head m addrLocalFreeBufQueue
        send_free_buf fuel (insert_tail r.1 addrFreeBufQueue r.2)

/-- `evt_drop` from `mm.rs`: splice the released event buffer onto the local
free queue; if the release channel is busy, mark pending work on its transmit
direction, otherwise drain to the shared queue and ring the release doorbell. -/
def evt_drop (fuel : Nat) (s : MmState) (evt : Nat) : MmState :=
  let m := insert_tail s.mem addrLocalFreeBufQueue evt
  let channel_is_busy := c1_is_active_flag s.ipcc c1.IPCC_MM_RELEASE_BUFFER_CHANNEL
  if channel_is_busy then
    { mem := m, ipcc := c1_set_tx_channel s.ipcc c1.IPCC_MM_RELEASE_BUFFER_CHANNEL true }
  else
    { mem := send_free_buf fuel m,
      ipcc := c1_set_flag_channel s.ipcc c1.IPCC_MM_RELEASE_BUFFER_CHANNEL }

/-- `free_buf_handler` from `mm.rs`: disable the release channel's transmit
mark, drain with `send_free_buf`, then ring the release doorbell
(unconditionally — the source has no emptiness test before the ring). -/
def free_buf_handler (fuel : Nat) (s : MmState) : MmState :=
  let ipcc1 := c1_set_tx_channel s.ipcc c1.IPCC_MM_RELEASE_BUFFER_CHANNEL false
  { mem := send_free_buf fuel s.mem
    ipcc := c1_set_flag_channel ipcc1 c1.IPCC_MM_RELEASE_BUFFER_CHANNEL }

/-- Slot count of the software event queue:
`pub type HeaplessEvtQueue = heapless::spsc::Queue<EvtBox, 32>` in
`tl_mbox.rs`. -/
def qN : Nat := 32

/-- The `heapless::spsc::Queue<T, N>` ring buffer (a dependency of the crate):
`N` slots indexed by `head`/`tail` in `0..N`; one slot is always kept empty,
so the documented capacity is `N - 1` elements.  Elements are event-box
handles, i.e. event-packet addresses. -/
structure SpscQueue where
  buf : Nat → Nat
  head : Nat
  tail : Nat

def qInc (v : Nat) : Nat := (v + 1) % qN

def qLen (q : SpscQueue) : Nat := (q.tail + qN - q.head) % qN

def qWF (q : SpscQueue) : Bool := decide (q.head < qN) && decide (q.tail < qN)

/-- `heapless::spsc::Queue::enqueue`: writes at `tail` and advances it, unless
advancing `tail` would collide with `head` (the queue is full). -/
def enqueue (q : SpscQueue) (x : Nat) : Option SpscQueue :=
  if qInc q.tail ≠ q.head then
    some { buf := fun i => if i = q.tail then x else q.buf i
           head := q.head
           tail := qInc q.tail }
  else none

/-- The elements currently held, oldest first. -/
def qContents (q : SpscQueue) : List Nat :=
  (List.range (qLen q)).map (fun i => q.buf ((q.head + i) % qN))

/-- The byte value `TL_BLECMD_PKT_TYPE` from `consts.rs`. -/
def TL_BLECMD_PKT_TYPE : Nat := 0x01

/-- The byte value `TL_ACL_DATA_PKT_TYPE` from `consts.rs`. -/
def TL_ACL_DATA_PKT_TYPE : Nat := 0x02

/-- Byte size of the `CmdSerial` region of the fixed command buffer
(`cmd.rs`): `kind` (1) + `cmdcode` (2) + `plen` (1) + fixed payload (255). -/
def CMD_SERIAL_SIZE : Nat := 259

/-- State for `Ble::send_cmd`: the bytes of the fixed command buffer's
`cmdserial` region (offset 0 is the `kind` byte) and the channel driver. -/
structure BleTxState where
  cmdSerial : Nat → Nat
  ipcc : IpccSt

/-- `Ble::send_cmd` from `ble.rs`:
`core::ptr::copy(buf.as_ptr(), p_cmd_serial.cast(), buf.len())` copies the
bytes to the start of the serial region, then `cmdserial.kind` (offset 0) is
set to `TL_BLECMD_PKT_TYPE`, then the BLE command channel is rung. -/
def send_cmd (s : BleTxState) (buf : List Nat) : BleTxState :=
  let copied : Nat → Nat := fun i => if i < buf.length then buf.getD i 0 else s.cmdSerial i
  let tagged : Nat → Nat := fun i => if i = 0 then TL_BLECMD_PKT_TYPE else copied i
  { cmdSerial := tagged
    ipcc := c1_set_flag_channel s.ipcc c1.IPCC_BLE_CMD_CHANNEL }

/-- Outcome of the `while` loop of `Ble::evt_handler`. -/
inductive LoopRes where
  | ok (m : Mem) (q : SpscQueue)
  | panicked
  | fuelOut

/-- The drain loop of `Ble::evt_handler` from `ble.rs`: while the shared event
queue is non-empty, `remove_head`, wrap the node as an event box (its
address), and enqueue it; `.unwrap_or_else(|_| panic!(…))` on a full software
queue is the `panicked` outcome.  The source's `while` loop gets explicit
fuel. -/
def evt_handler_loop : Nat → Mem → SpscQueue → LoopRes
  | 0, _, _ => .fuelOut
  | fuel + 1, m, q =>
      if is_empty m addrEvtQueue then .ok m q
      else
        let r := remove_head m addrEvtQueue
        match enqueue q r.2 with
        | some q' => evt_handler_loop fuel r.1 q'
        | none => .panicked

/-- Outcome of `Ble::evt_handler`. -/
inductive EvtHandlerRes where
  | ok (m : Mem) (q : SpscQueue) (ipcc : IpccSt)
  | panicked
  | fuelOut

/-- `Ble::evt_handler` from `ble.rs`: drain the shared event queue into the
software queue, then clear the BLE event channel's flag. -/
def evt_handler (fuel : Nat) (m : Mem) (q : SpscQueue) (ipcc : IpccSt) : EvtHandlerRes :=
  match evt_handler_loop fuel m q with
  | .ok m' q' => .ok m' q' (c1_clear_flag_channel ipcc c2.IPCC_BLE_EVENT_CHANNEL)
  | .panicked => .panicked
  | .fuelOut => .fuelOut

/-- Write status of a raw byte buffer static. -/
inductive BufSt where
  | uninit
  | zeroed
deriving DecidableEq, Repr

/-- Pointer-field image of `BleTable` (`tl_mbox.rs`); a value 0 reads as a
null (zeroed) pointer. -/
structure BleTableV where
  pcmd_buffer : Nat
  pcs_buffer : Nat
  pevt_queue : Nat
  phci_acl_data_buffer : Nat
deriving DecidableEq, Repr

/-- Pointer-field image of `ThreadTable`. -/
structure ThreadTableV where
  notack_buffer : Nat
  clicmdrsp_buffer : Nat
  otcmdrsp_buffer : Nat
  clinot_buffer : Nat
deriving DecidableEq, Repr

/-- Pointer-field image of `LldTestsTable`. -/
structure LldTestsTableV where
  clicmdrsp_buffer : Nat
  m0cmd_buffer : Nat
deriving DecidableEq, Repr

/-- Pointer-field image of `BleLldTable`. -/
structure BleLldTableV where
  cmdrsp_buffer : Nat
  m0cmd_buffer : Nat
deriving DecidableEq, Repr

/-- Pointer-field image of `ZigbeeTable`. -/
structure ZigbeeTableV where
  notif_m0_to_m4_buffer : Nat
  appli_cmd_m4_to_m0_buffer : Nat
  request_m0_to_m4_buffer : Nat
deriving DecidableEq, Repr

/-- Pointer-field image of `SysTable`. -/
structure SysTableV where
  pcmd_buffer : Nat
  sys_queue : Nat
deriving DecidableEq, Repr

/-- Field image of `MemManagerTable`. -/
structure MemManagerTableV where
  spare_ble_buffer : Nat
  spare_sys_buffer : Nat
  blepool : Nat
  blepoolsize : Nat
  pevt_free_buffer_queue : Nat
  traces_evt_pool : Nat
  tracespoolsize : Nat
deriving DecidableEq, Repr

/-- Pointer-field image of `TracesTable`. -/
structure TracesTableV where
  traces_queue : Nat
deriving DecidableEq, Repr

/-- Pointer-field image of `Mac802_15_4`. -/
structure Mac802_15_4V where
  p_cmdrsp_buffer : Nat
  p_notack_buffer : Nat
  evt_queue : Nat
deriving DecidableEq, Repr

/-- Pointer-field image of `RefTable`. -/
structure RefTableV where
  p_device_info_table : Nat
  p_ble_table : Nat
  p_thread_table : Nat
  p_sys_table : Nat
  p_mem_manager_table : Nat
  p_traces_table : Nat
  p_mac_802_15_4_table : Nat
  p_zigbee_table : Nat
  p_lld_tests_table : Nat
  p_ble_lld_table : Nat
deriving DecidableEq, Repr

/-- The mailbox statics of `tl_mbox.rs`, one field per `static mut`.  Tables
hold their field images (`none` = never written since reset); raw byte
buffers hold a write status; list-head statics hold their node value (`none` =
never written).  The two collaborator-side bits record the clock enable of
`Ipcc::new` and the rx enable done by `Ble::new`. -/
structure TlState where
  ref_table : Option RefTableV
  device_info_table : BufSt
  ble_table : Option BleTableV
  thread_table : Option ThreadTableV
  lld_tests_table : Option LldTestsTableV
  ble_lld_table : Option BleLldTableV
  sys_table : Option SysTableV
  mem_manager_table : Option MemManagerTableV
  traces_table : Option TracesTableV
  mac_802_15_4_table : Option Mac802_15_4V
  zigbee_table : Option ZigbeeTableV
  free_buf_queue : Option LNode
  traces_evt_queue : Option LNode
  cs_buffer : BufSt
  evt_queue : Option LNode
  system_evt_queue : Option LNode
  local_free_buf_queue : Option LNode
  evt_pool : BufSt
  sys_cmd_buffer : BufSt
  sys_spare_evt_buf : BufSt
  ble_spare_evt_buf : BufSt
  ble_cmd_buffer : BufSt
  hci_acl_data_buffer : BufSt
  ipcc_clock_enabled : Bool
  ble_event_rx_enabled : Bool
deriving DecidableEq, Repr

/-- `TL_EVT_HDR_SIZE` from `consts.rs`. -/
def TL_EVT_HDR_SIZE : Nat := 3

/-- `TL_CS_EVT_SIZE` from `consts.rs`: `size_of::<CsEvt>()` = 1 + 1 + 2 bytes,
packed. -/
def TL_CS_EVT_SIZE : Nat := 4

/-- `TL_PACKET_HEADER_SIZE` from `consts.rs`: `size_of::<PacketHeader>()` =
two 32-bit pointers on this target. -/
def TL_PACKET_HEADER_SIZE : Nat := 8

/-- `CFG_TLBLE_EVT_QUEUE_LENGTH` from `tl_mbox.rs`. -/
def CFG_TLBLE_EVT_QUEUE_LENGTH : Nat := 5

/-- `CFG_TLBLE_MOST_EVENT_PAYLOAD_SIZE` from `tl_mbox.rs`. -/
def CFG_TLBLE_MOST_EVENT_PAYLOAD_SIZE : Nat := 255

/-- `TL_BLE_EVENT_FRAME_SIZE` from `tl_mbox.rs`. -/
def TL_BLE_EVENT_FRAME_SIZE : Nat := TL_EVT_HDR_SIZE + CFG_TLBLE_MOST_EVENT_PAYLOAD_SIZE

/-- `divc` from `tl_mbox.rs`. -/
def divc (x y : Nat) : Nat := (x + y - 1) / y

/-- `POOL_SIZE` from `tl_mbox.rs`. -/
def POOL_SIZE : Nat :=
  CFG_TLBLE_EVT_QUEUE_LENGTH * 4 * divc (TL_PACKET_HEADER_SIZE + TL_BLE_EVENT_FRAME_SIZE) 4

/-- `Ble::new` from `ble.rs`: `init_head(EVT_QUEUE)`, fill `TL_BLE_TABLE` with
the addresses of the command buffer, the status-event buffer, the event queue
and the ACL data buffer, then enable reception of the BLE event channel. -/
def Ble_new (s : TlState) : TlState :=
  { s with
    evt_queue := some ⟨addrEvtQueue, addrEvtQueue⟩
    ble_table := some ⟨addrBleCmdBuffer, addrCsBuffer, addrEvtQueue, addrHciAclDataBuffer⟩
    ble_event_rx_enabled := true }

/-- `MemoryManager::new` from `mm.rs`: `init_head` on the shared and the local
free-buffer queues, then fill `TL_MEM_MANAGER_TABLE` (its traces pool pointer
is written as null with size 0). -/
def MemoryManager_new (s : TlState) : TlState :=
  { s with
    free_buf_queue := some ⟨addrFreeBufQueue, addrFreeBufQueue⟩
    local_free_buf_queue := some ⟨addrLocalFreeBufQueue, addrLocalFreeBufQueue⟩
    mem_manager_table :=
      some ⟨addrBleSpareEvtBuf, addrSysSpareEvtBuf, addrEvtPool, POOL_SIZE,
        addrFreeBufQueue, 0, 0⟩ }

/-- Modelled from the spec: `Ipcc::new` (from `crate::ipcc`, not among the
sources) enables the doorbell peripheral's clock during bootstrap. -/
def Ipcc_new (s : TlState) : TlState :=
  { s with ipcc_clock_enabled := true }

/-- `TlMbox::tl_init` from `tl_mbox.rs`, assignment by assignment: fill
`TL_REF_TABLE` with the addresses of the second-level tables, zero exactly the
statics the source zeroes, construct the channel driver, then run `Ble::new`
and `MemoryManager::new`. -/
def tl_init (s0 : TlState) : TlState :=
  let rt : RefTableV :=
    ⟨addrDeviceInfoTable, addrBleTable, addrThreadTable, addrSysTable,
      addrMemManagerTable, addrTracesTable, addrMac802_15_4Table, addrZigbeeTable,
      addrLldTestsTable, addrBleLldTable⟩
  let s1 := { s0 with ref_table := some rt }
  let s2 := { s1 with
    device_info_table := BufSt.zeroed
    ble_table := some ⟨0, 0, 0, 0⟩
    thread_table := some ⟨0, 0, 0, 0⟩
    sys_table := some ⟨0, 0⟩
    mem_manager_table := some ⟨0, 0, 0, 0, 0, 0, 0⟩
    traces_table := some ⟨0⟩
    mac_802_15_4_table := some ⟨0, 0, 0⟩
    zigbee_table := some ⟨0, 0, 0⟩
    lld_tests_table := some ⟨0, 0⟩
    ble_lld_table := some ⟨0, 0⟩
    local_free_buf_queue := some ⟨0, 0⟩
    evt_pool := BufSt.zeroed
    sys_cmd_buffer := BufSt.zeroed
    sys_spare_evt_buf := BufSt.zeroed
    ble_spare_evt_buf := BufSt.zeroed
    cs_buffer := BufSt.zeroed
    ble_cmd_buffer := BufSt.zeroed }
  MemoryManager_new (Ble_new (Ipcc_new s2))

/-- The reset state: no static has been written yet. -/
def bootState : TlState :=
  { ref_table := none
    device_info_table := BufSt.uninit
    ble_table := none
    thread_table := none
    lld_tests_table := none
    ble_lld_table := none
    sys_table := none
    mem_manager_table := none
    traces_table := none
    mac_802_15_4_table := none
    zigbee_table := none
    free_buf_queue := none
    traces_evt_queue := none
    cs_buffer := BufSt.uninit
    evt_queue := none
    system_evt_queue := none
    local_free_buf_queue := none
    evt_pool := BufSt.uninit
    sys_cmd_buffer := BufSt.uninit
    sys_spare_evt_buf := BufSt.uninit
    ble_spare_evt_buf := BufSt.uninit
    ble_cmd_buffer := BufSt.uninit
    hci_acl_data_buffer := BufSt.uninit
    ipcc_clock_enabled := false
    ble_event_rx_enabled := false }

/-- A list-head static has had `init_head` run on it when it holds the
empty-list value linking to its own address. -/
def headInitialized (q : Option LNode) (addr : Nat) : Bool :=
  q == some ⟨addr, addr⟩

/-- Claim C1's property, as stated, over the mailbox state after `tl_init`:
(a) every backing storage object has been zeroed (here: written — any field
still in its reset state refutes this); (b) `init_head` has been run on the
event queue, the system event queue, the traces event queue and the
free-buffer queue; (c) every pointer field of the Reference Table holds its
target's address and every pointer field of every second-level table is
non-null. -/
def claimC1 (s : TlState) : Bool :=
  (s.ref_table.isSome && s.ble_table.isSome && s.thread_table.isSome &&
   s.lld_tests_table.isSome && s.ble_lld_table.isSome && s.sys_table.isSome &&
   s.mem_manager_table.isSome && s.traces_table.isSome && s.mac_802_15_4_table.isSome &&
   s.zigbee_table.isSome && s.free_buf_queue.isSome && s.traces_evt_queue.isSome &&
   s.evt_queue.isSome && s.system_evt_queue.isSome && s.local_free_buf_queue.isSome &&
   s.device_info_table == BufSt.zeroed && s.cs_buffer == BufSt.zeroed &&
   s.evt_pool == BufSt.zeroed && s.sys_cmd_buffer == BufSt.zeroed &&
   s.sys_spare_evt_buf == BufSt.zeroed && s.ble_spare_evt_buf == BufSt.zeroed &&
   s.ble_cmd_buffer == BufSt.zeroed && s.hci_acl_data_buffer == BufSt.zeroed) &&
  (headInitialized s.evt_queue addrEvtQueue &&
   headInitialized s.system_evt_queue addrSystemEvtQueue &&
   headInitialized s.traces_evt_queue addrTracesEvtQueue &&
   headInitialized s.free_buf_queue addrFreeBufQueue) &&
  (s.ref_table == some ⟨addrDeviceInfoTable, addrBleTable, addrThreadTable, addrSysTable,
      addrMemManagerTable, addrTracesTable, addrMac802_15_4Table, addrZigbeeTable,
      addrLldTestsTable, addrBleLldTable⟩) &&
  (match s.ble_table with
   | some t => decide (t.pcmd_buffer ≠ 0) && decide (t.pcs_buffer ≠ 0) &&
       decide (t.pevt_queue ≠ 0) && decide (t.phci_acl_data_buffer ≠ 0)
   | none => false) &&
  (match s.thread_table with
   | some t => decide (t.notack_buffer ≠ 0) && decide (t.clicmdrsp_buffer ≠ 0) &&
       decide (t.otcmdrsp_buffer ≠ 0) && decide (t.clinot_buffer ≠ 0)
   | none => false) &&
  (match s.sys_table with
   | some t => decide (t.pcmd_buffer ≠ 0) && decide (t.sys_queue ≠ 0)
   | none => false) &&
  (match s.mem_manager_table with
   | some t => decide (t.spare_ble_buffer ≠ 0) && decide (t.spare_sys_buffer ≠ 0) &&
       decide (t.blepool ≠ 0) && decide (t.pevt_free_buffer_queue ≠ 0) &&
       decide (t.traces_evt_pool ≠ 0)
   | none => false) &&
  (match s.traces_table with
   | some t => decide (t.traces_queue ≠ 0)
   | none => false) &&
  (match s.mac_802_15_4_table with
   | some t => decide (t.p_cmdrsp_buffer ≠ 0) && decide (t.p_notack_buffer ≠ 0) &&
       decide (t.evt_queue ≠ 0)
   | none => false) &&
  (match s.zigbee_table with
   | some t => decide (t.notif_m0_to_m4_buffer ≠ 0) &&
       decide (t.appli_cmd_m4_to_m0_buffer ≠ 0) && decide (t.request_m0_to_m4_buffer ≠ 0)
   | none => false) &&
  (match s.lld_tests_table with
   | some t => decide (t.clicmdrsp_buffer ≠ 0) && decide (t.m0cmd_buffer ≠ 0)
   | none => false) &&
  (match s.ble_lld_table with
   | some t => decide (t.cmdrsp_buffer ≠ 0) && decide (t.m0cmd_buffer ≠ 0)
   | none => false)

/-- Pointer expressions appearing in the store statements of
`unsafe_linked_list.rs`: the pointer parameters and field loads. -/
inductive PExpr where
  | headP
  | nodeP
  | refP
  | nextOf (e : PExpr)
  | prevOf (e : PExpr)
deriving DecidableEq, Repr

/-- One statement of a list operation's body: store to the `next` or `prev`
field of the destination, store the out-parameter (`*node = …`), or the call
`remove_node(arg)` that `remove_head`/`remove_tail` make (the callee's own
body is `remove_node_body`). -/
inductive WStmt where
  | setNextS (dst src : PExpr)
  | setPrevS (dst src : PExpr)
  | setOutS (src : PExpr)
  | callRemove (arg : PExpr)
deriving DecidableEq, Repr

/-- A block of statements, marked with whether the source wraps it in
`cortex_m::interrupt::free` (the host-side critical section). -/
structure Blk where
  masked : Bool
  stmts : List WStmt
deriving DecidableEq, Repr

/-- A function body: its top-level blocks in order. -/
abbrev Body := List Blk

/-- Values of the pointer parameters. -/
structure LLEnv where
  headV : Nat
  nodeV : Nat
  refV : Nat

def evalP (m : Mem) (env : LLEnv) : PExpr → Nat
  | .headP => env.headV
  | .nodeP => env.nodeV
  | .refP => env.refV
  | .nextOf e => (m (evalP m env e)).next
  | .prevOf e => (m (evalP m env e)).prev

def execStmt (env : LLEnv) : Mem × Option Nat → WStmt → Mem × Option Nat
  | (m, o), .setNextS d sr => (setNext m (evalP m env d) (evalP m env sr), o)
  | (m, o), .setPrevS d sr => (setPrev m (evalP m env d) (evalP m env sr), o)
  | (m, _), .setOutS sr => (m, some (evalP m env sr))
  | (m, o), .callRemove arg => (remove_node m (evalP m env arg), o)

def execBlk (env : LLEnv) (st : Mem × Option Nat) (b : Blk) : Mem × Option Nat :=
  b.stmts.foldl (execStmt env) st

def execBody (env : LLEnv) (bo : Body) (st : Mem × Option Nat) : Mem × Option Nat :=
  bo.foldl (execBlk env) st

/-- `init_head`'s body: two bare stores, no critical section (lines 7–10 of
`unsafe_linked_list.rs` have no `cortex_m::interrupt::free`). -/
def init_head_body : Body :=
  [⟨false, [.setNextS .headP .headP]⟩, ⟨false, [.setPrevS .headP .headP]⟩]

/-- `insert_head`'s body: one critical section holding its four stores. -/
def insert_head_body : Body :=
  [⟨true, [.setNextS .nodeP (.nextOf .headP), .setPrevS .nodeP .headP,
    .setNextS .headP .nodeP, .setPrevS (.nextOf .nodeP) .nodeP]⟩]

/-- `insert_tail`'s body. -/
def insert_tail_body : Body :=
  [⟨true, [.setNextS .nodeP .headP, .setPrevS .nodeP (.prevOf .headP),
    .setPrevS .headP .nodeP, .setNextS (.prevOf .nodeP) .nodeP]⟩]

/-- `remove_node`'s body. -/
def remove_node_body : Body :=
  [⟨true, [.setNextS (.prevOf .nodeP) (.nextOf .nodeP),
    .setPrevS (.nextOf .nodeP) (.prevOf .nodeP)]⟩]

/-- `remove_head`'s body: out-parameter store and the `remove_node` call, in
one critical section. -/
def remove_head_body : Body :=
  [⟨true, [.setOutS (.nextOf .headP), .callRemove (.nextOf .headP)]⟩]

/-- `remove_tail`'s body. -/
def remove_tail_body : Body :=
  [⟨true, [.setOutS (.prevOf .headP), .callRemove (.prevOf .headP)]⟩]

/-- `insert_node_after`'s body. -/
def insert_node_after_body : Body :=
  [⟨true, [.setNextS .nodeP (.nextOf .refP), .setPrevS .nodeP .refP,
    .setNextS .refP .nodeP, .setPrevS (.nextOf .nodeP) .nodeP]⟩]

/-- `insert_node_before`'s body. -/
def insert_node_before_body : Body :=
  [⟨true, [.setNextS .nodeP .refP, .setPrevS .nodeP (.prevOf .refP),
    .setPrevS .refP .nodeP, .setNextS (.prevOf .nodeP) .nodeP]⟩]

/-- The mutating operations of `unsafe_linked_list.rs`, with their bodies. -/
def mutatingBodies : List Body :=
  [init_head_body, insert_head_body, insert_tail_body, remove_node_body,
   remove_head_body, remove_tail_body, insert_node_after_body, insert_node_before_body]

/-- All of a body's blocks run under the critical section. -/
def fullyMasked (b : Body) : Bool :=
  b.all (fun blk => blk.masked)

/-- A one-address memory holding an empty list at address 0. -/
def c10demoMem : Mem := fun _ => ⟨0, 0⟩

/-- Claim C3 as stated, as a predicate: when the local free queue is empty at
the call, `free_buf_handler` performs no doorbell ring. -/
def claimC3 (s : MmState) (fuel : Nat) : Prop :=
  is_empty s.mem addrLocalFreeBufQueue = true →
    (free_buf_handler fuel s).ipcc.c1Rings c1.IPCC_MM_RELEASE_BUFFER_CHANNEL =
      s.ipcc.c1Rings c1.IPCC_MM_RELEASE_BUFFER_CHANNEL

/-- An all-empty-queues memory: both free queues are empty lists. -/
def c3demoMem : Mem := fun a =>
  if a = addrLocalFreeBufQueue then ⟨addrLocalFreeBufQueue, addrLocalFreeBufQueue⟩
  else if a = addrFreeBufQueue then ⟨addrFreeBufQueue, addrFreeBufQueue⟩
  else ⟨0, 0⟩

/-- A channel driver state with nothing pending: all flags clear, no rings. -/
def ipccIdle : IpccSt :=
  ⟨fun _ => false, fun _ => false, fun _ => false, fun _ => false, fun _ => 0⟩

/-- Claim C4 as stated, as a predicate: after `send_cmd(buf)` the serial
region holds the command kind tag followed by exactly the bytes of `buf`, and
the command doorbell has been rung. -/
def claimC4 (s : BleTxState) (buf : List Nat) : Prop :=
  (send_cmd s buf).cmdSerial 0 = TL_BLECMD_PKT_TYPE ∧
  (∀ i < buf.length, (send_cmd s buf).cmdSerial (i + 1) = buf.getD i 0) ∧
  (send_cmd s buf).ipcc.c1Rings c1.IPCC_BLE_CMD_CHANNEL =
    s.ipcc.c1Rings c1.IPCC_BLE_CMD_CHANNEL + 1

/-- A command-buffer state whose serial region is zeroed. -/
def c4demoState : BleTxState := ⟨fun _ => 0, ipccIdle⟩

/-- Claim C5 as stated: the software queue holds up to 32 event handles, i.e.
whenever fewer than 32 are held an enqueue succeeds. -/
def claimC5 : Prop :=
  ∀ (q : SpscQueue) (x : Nat), qWF q = true → qLen q < 32 → (enqueue q x).isSome = true

/-- A software queue holding 31 handles (its slots all written, one ring slot
kept empty by the implementation). -/
def c5fullQueue : SpscQueue := ⟨fun _ => 0, 0, 31⟩

/-- A shared event queue holding exactly one event node (address 50). -/
def c5demoMem : Mem := fun a =>
  if a = addrEvtQueue then ⟨50, 50⟩
  else if a = 50 then ⟨addrEvtQueue, addrEvtQueue⟩
  else ⟨0, 0⟩

/-- Claim C9 as stated: every mutating list operation — `init_head`
included — performs all of its stores inside a critical section. -/
def claimC9 : Prop :=
  ∀ b ∈ mutatingBodies, fullyMasked b = true

/-- A memory with all nodes zeroed, for the C6 witness. -/
def c6demoMem : Mem := fun _ => ⟨0, 0⟩

/-- A sample legal operation sequence exercising all seven mutating
operations on the list headed at address 0. -/
def c6demoOps : List LLOp :=
  [.insTail 1, .insHead 2, .insAfter 3 1, .insBefore 4 2, .rmNode 1, .rmTail, .rmHead]

/-- A shared event queue holding the three nodes 50, 51, 52. -/
def c7demoMem : Mem := fun a =>
  if a = addrEvtQueue then ⟨50, 52⟩
  else if a = 50 then ⟨51, addrEvtQueue⟩
  else if a = 51 then ⟨52, 50⟩
  else if a = 52 then ⟨addrEvtQueue, 51⟩
  else ⟨0, 0⟩

/-- An empty software queue. -/
def c7emptyQueue : SpscQueue := ⟨fun _ => 0, 0, 0⟩

/-- A channel-driver state with the BLE event flag pending, as when the
handler is dispatched. -/
def c7demoIpcc : IpccSt :=
  ⟨fun _ => false, fun _ => false, fun c => c == IpccChannel.channel1, fun _ => false,
   fun _ => 0⟩

/-- A memory where both free-buffer queues are empty lists. -/
def c2demoMem : Mem := fun a =>
  if a = addrLocalFreeBufQueue then ⟨addrLocalFreeBufQueue, addrLocalFreeBufQueue⟩
  else if a = addrFreeBufQueue then ⟨addrFreeBufQueue, addrFreeBufQueue⟩
  else ⟨0, 0⟩

/-- A channel-driver state with the release channel (channel 4) busy. -/
def c2demoIpcc : IpccSt :=
  ⟨fun c => c == IpccChannel.channel4, fun _ => false, fun _ => false, fun _ => false,
   fun _ => 0⟩

theorem chainB_nil_iff (m : Mem) (a b : Nat) :
    chainB m a [] b = true ↔ (m a).next = b ∧ (m b).prev = a := by
  simp [chainB]

theorem chainB_cons_iff (m : Mem) (a x b : Nat) (xs : List Nat) :
    chainB m a (x :: xs) b = true ↔
      (m a).next = x ∧ (m x).prev = a ∧ chainB m x xs b = true := by
  simp [chainB, and_assoc]

/-- Splitting a chain at an interior element. -/
theorem chainB_append_iff (m : Mem) (y : Nat) :
    ∀ (l : List Nat) (a b : Nat) (r : List Nat),
      chainB m a (l ++ y :: r) b = true ↔
        (chainB m a l y = true ∧ chainB m y r b = true) := by
  intro l
  induction l with
  | nil =>
      intro a b r
      simp [chainB_cons_iff, chainB_nil_iff, and_assoc]
  | cons x t ih =>
      intro a b r
      simp only [List.cons_append, chainB_cons_iff, ih, and_assoc]

/-- A chain only reads `next` of its start, `prev` of its end, and both fields
of its interior elements. -/
theorem chainB_congr (m m' : Mem) :
    ∀ (xs : List Nat) (a b : Nat),
      (m' a).next = (m a).next → (∀ x ∈ xs, m' x = m x) →
      (m' b).prev = (m b).prev →
      (chainB m' a xs b = true ↔ chainB m a xs b = true) := by
  intro xs
  induction xs with
  | nil =>
      intro a b ha hxs hb
      simp [chainB_nil_iff, ha, hb]
  | cons x t ih =>
      intro a b ha hxs hb
      have hx : m' x = m x := hxs x (by simp)
      simp only [chainB_cons_iff, ha, hx]
      constructor
      · rintro ⟨h1, h2, h3⟩
        exact ⟨h1, h2, (ih x b (by rw [hx]) (fun y hy => hxs y (by simp [hy])) hb).mp h3⟩
      · rintro ⟨h1, h2, h3⟩
        exact ⟨h1, h2, (ih x b (by rw [hx]) (fun y hy => hxs y (by simp [hy])) hb).mpr h3⟩

theorem store_at (m : Mem) (a : Nat) (v : LNode) : store m a v a = v := by
  simp [store]

theorem store_ne (m : Mem) (a : Nat) (v : LNode) (x : Nat) (h : x ≠ a) :
    store m a v x = m x := by
  simp [store, h]

/-- Pointwise effect of `insert_head` when the inserted node is fresh. -/
theorem insert_head_eval (m : Mem) (head node : Nat)
    (hnh : node ≠ head) (hnf : node ≠ (m head).next) :
    (insert_head m head node node = ⟨(m head).next, head⟩) ∧
    (insert_head m head node head =
      if (m head).next = head then ⟨node, node⟩ else ⟨node, (m head).prev⟩) ∧
    ((m head).next ≠ head →
      insert_head m head node ((m head).next) = ⟨(m ((m head).next)).next, node⟩) ∧
    (∀ x, x ≠ node → x ≠ head → x ≠ (m head).next → insert_head m head node x = m x) := by
  have hhn : head ≠ node := hnh.symm
  by_cases hfh : (m head).next = head
  · refine ⟨?_, ?_, ?_, ?_⟩
    · simp [insert_head, setNext, setPrev, store, hnh, hfh, hhn]
    · simp [insert_head, setNext, setPrev, store, hnh, hfh, hhn]
    · intro h; exact absurd hfh h
    · intro x hx1 hx2 _
      simp [insert_head, setNext, setPrev, store, hnh, hfh, hhn, hx1, hx2]
  · have hfn : (m head).next ≠ node := fun h => hnf h.symm
    have hfh' : head ≠ (m head).next := fun h => hfh h.symm
    refine ⟨?_, ?_, ?_, ?_⟩
    · simp [insert_head, setNext, setPrev, store, hnh, hfh, hhn, hnf, hfn, hfh']
    · simp [insert_head, setNext, setPrev, store, hnh, hfh, hhn, hnf, hfn, hfh']
    · intro _
      simp [insert_head, setNext, setPrev, store, hnh, hfh, hhn, hnf, hfn, hfh']
    · intro x hx1 hx2 hx3
      simp [insert_head, setNext, setPrev, store, hnh, hx1, hx2, hx3]

/-- Pointwise effect of `insert_tail` when the inserted node is fresh. -/
theorem insert_tail_eval (m : Mem) (head node : Nat)
    (hnh : node ≠ head) (hnp : node ≠ (m head).prev) :
    (insert_tail m head node node = ⟨head, (m head).prev⟩) ∧
    (insert_tail m head node head =
      if (m head).prev = head then ⟨node, node⟩ else ⟨(m head).next, node⟩) ∧
    ((m head).prev ≠ head →
      insert_tail m head node ((m head).prev) = ⟨node, (m ((m head).prev)).prev⟩) ∧
    (∀ x, x ≠ node → x ≠ head → x ≠ (m head).prev → insert_tail m head node x = m x) := by
  have hhn : head ≠ node := hnh.symm
  have hpn : (m head).prev ≠ node := fun h => hnp h.symm
  by_cases hph : (m head).prev = head
  · refine ⟨?_, ?_, ?_, ?_⟩
    · simp [insert_tail, setNext, setPrev, store, hnh, hph, hhn, hnp, hpn]
    · simp [insert_tail, setNext, setPrev, store, hnh, hph, hhn, hnp, hpn]
    · intro h; exact absurd hph h
    · intro x hx1 hx2 hx3
      simp [insert_tail, setNext, setPrev, store, hnh, hph, hhn, hnp, hpn, hx1, hx2, hx3]
  · have hph' : head ≠ (m head).prev := fun h => hph h.symm
    refine ⟨?_, ?_, ?_, ?_⟩
    · simp [insert_tail, setNext, setPrev, store, hnh, hph, hhn, hnp, hpn, hph']
    · simp [insert_tail, setNext, setPrev, store, hnh, hph, hhn, hnp, hpn, hph']
    · intro _
      simp [insert_tail, setNext, setPrev, store, hnh, hph, hhn, hnp, hpn, hph']
    · intro x hx1 hx2 hx3
      simp [insert_tail, setNext, setPrev, store, hnh, hph, hhn, hnp, hpn, hph', hx1, hx2, hx3]

/-- Pointwise effect of `remove_node` when the node's neighbours are distinct
from the node itself. -/
theorem remove_node_eval (m : Mem) (node : Nat)
    (hp : (m node).prev ≠ node) (hq : (m node).next ≠ node) :
    (((m node).prev = (m node).next →
       remove_node m node ((m node).prev) = ⟨(m node).prev, (m node).prev⟩) ∧
     ((m node).prev ≠ (m node).next →
       remove_node m node ((m node).prev) = ⟨(m node).next, (m ((m node).prev)).prev⟩ ∧
       remove_node m node ((m node).next) = ⟨(m ((m node).next)).next, (m node).prev⟩)) ∧
    (∀ x, x ≠ (m node).prev → x ≠ (m node).next → remove_node m node x = m x) := by
  have hp' : node ≠ (m node).prev := fun h => hp h.symm
  have hq' : node ≠ (m node).next := fun h => hq h.symm
  by_cases hpq : (m node).prev = (m node).next
  · refine ⟨⟨fun _ => ?_, fun h => absurd hpq h⟩, ?_⟩
    · simp [remove_node, setNext, setPrev, store, hp, hq, hp', hq', hpq]
    · intro x hx1 _
      simp [remove_node, setNext, setPrev, store, hp, hq, hp', hq', ← hpq, hx1]
  · have hqp : (m node).next ≠ (m node).prev := fun h => hpq h.symm
    refine ⟨⟨fun h => absurd h hpq, fun _ => ⟨?_, ?_⟩⟩, ?_⟩
    · simp [remove_node, setNext, setPrev, store, hp, hq, hp', hq', hpq, hqp]
    · simp [remove_node, setNext, setPrev, store, hp, hq, hp', hq', hpq, hqp]
    · intro x hx1 hx2
      simp [remove_node, setNext, setPrev, store, hp, hq, hp', hq', hpq, hqp, hx1, hx2]

theorem lastD_mem (d : Nat) : ∀ xs : List Nat, lastD d xs ∈ d :: xs := by
  intro xs
  induction xs generalizing d with
  | nil => simp [lastD]
  | cons x t ih =>
      have := ih x
      simp only [lastD]
      rcases List.mem_cons.mp this with h | h
      · simp [h]
      · simp [List.mem_cons, h]

theorem lastD_concat (d y : Nat) : ∀ l : List Nat, lastD d (l ++ [y]) = y := by
  intro l
  induction l generalizing d with
  | nil => simp [lastD]
  | cons x t ih => simpa [lastD] using ih x

/-- The `prev` of a chain's endpoint is the last element before it. -/
theorem chain_end_prev (m : Mem) :
    ∀ (xs : List Nat) (a b : Nat), chainB m a xs b = true → (m b).prev = lastD a xs := by
  intro xs
  induction xs with
  | nil =>
      intro a b h
      exact ((chainB_nil_iff m a b).mp h).2
  | cons x t ih =>
      intro a b h
      obtain ⟨_, _, h3⟩ := (chainB_cons_iff m a x b t).mp h
      simpa [lastD] using ih x b h3

/-- The `next` of a chain's start is the first element after it. -/
theorem chain_start_next (m : Mem) (xs : List Nat) (a b : Nat)
    (h : chainB m a xs b = true) : (m a).next = xs.headD b := by
  cases xs with
  | nil => exact ((chainB_nil_iff m a b).mp h).1
  | cons x t => exact ((chainB_cons_iff m a x b t).mp h).1

/-- `insert_head` prepends a fresh node to a well-formed list. -/
theorem insert_head_spec (m : Mem) (head node : Nat) (xs : List Nat)
    (hl : IsList m head xs) (hn : node ∉ head :: xs) :
    IsList (insert_head m head node) head (node :: xs) := by
  obtain ⟨hnd, hch⟩ := hl
  have hnh : node ≠ head := by
    intro h; exact hn (by simp [h])
  have hnxs : node ∉ xs := fun h => hn (List.mem_cons_of_mem _ h)
  have hhx : head ∉ xs := (List.nodup_cons.mp hnd).1
  have hndgoal : (head :: node :: xs).Nodup := by
    rw [List.nodup_cons] at hnd ⊢
    refine ⟨?_, List.nodup_cons.mpr ⟨hnxs, hnd.2⟩⟩
    simp only [List.mem_cons]
    rintro (h | h)
    · exact hnh h.symm
    · exact hhx h
  cases xs with
  | nil =>
      obtain ⟨h1, h2⟩ := (chainB_nil_iff m head head).mp hch
      have hnf : node ≠ (m head).next := by rw [h1]; exact hnh
      obtain ⟨e1, e2, _, _⟩ := insert_head_eval m head node hnh hnf
      refine ⟨hndgoal, ?_⟩
      rw [chainB_cons_iff, chainB_nil_iff]
      rw [h1] at e1 e2
      simp only [if_pos rfl] at e2
      simp [e1, e2]
  | cons x rest =>
      obtain ⟨h1, h2, h3⟩ := (chainB_cons_iff m head x head rest).mp hch
      have hxh : x ≠ head := by
        intro h
        exact (List.nodup_cons.mp hnd).1 (by simp [h])
      have hnx : node ≠ x := by
        intro h; exact hnxs (by simp [h])
      have hnf : node ≠ (m head).next := by rw [h1]; exact hnx
      obtain ⟨e1, e2, e3, e4⟩ := insert_head_eval m head node hnh hnf
      rw [h1] at e1 e2 e3
      simp only [if_neg hxh] at e2
      have e3' := e3 hxh
      refine ⟨hndgoal, ?_⟩
      rw [chainB_cons_iff, chainB_cons_iff]
      refine ⟨by simp [e2], by simp [e1], by simp [e1], by simp [e3'], ?_⟩
      have hrest : ∀ y ∈ rest, insert_head m head node y = m y := by
        intro y hy
        have hnodups := hnd
        rw [List.nodup_cons] at hnodups
        have hxrest : x ∉ rest := (List.nodup_cons.mp hnodups.2).1
        refine e4 y ?_ ?_ ?_
        · intro h; exact hnxs (by simp [h.symm, hy])
        · intro h; exact hhx (by rw [h] at hy; exact List.mem_cons_of_mem _ hy)
        · rw [h1]; intro h; exact hxrest (h ▸ hy)
      exact (chainB_congr m (insert_head m head node) rest x head
        (by rw [e3']) hrest (by rw [e2])).mpr h3

/-- `insert_tail` appends a fresh node to a well-formed list. -/
theorem insert_tail_spec (m : Mem) (head node : Nat) (xs : List Nat)
    (hl : IsList m head xs) (hn : node ∉ head :: xs) :
    IsList (insert_tail m head node) head (xs ++ [node]) := by
  obtain ⟨hnd, hch⟩ := hl
  have hnh : node ≠ head := by
    intro h; exact hn (by simp [h])
  have hnxs : node ∉ xs := fun h => hn (List.mem_cons_of_mem _ h)
  have hhx : head ∉ xs := (List.nodup_cons.mp hnd).1
  have hprev : (m head).prev = lastD head xs := chain_end_prev m xs head head hch
  have hnp : node ≠ (m head).prev := by
    rw [hprev]; intro h
    exact hn (h ▸ lastD_mem head xs)
  have hndgoal : (head :: (xs ++ [node])).Nodup := by
    rw [List.nodup_cons] at hnd ⊢
    constructor
    · simp only [List.mem_append, List.mem_singleton]
      rintro (h | h)
      · exact hhx h
      · exact hnh h.symm
    · rw [List.nodup_append]
      refine ⟨hnd.2, List.nodup_singleton _, ?_⟩
      intro y hy
      simp only [List.mem_singleton]
      intro h
      exact hnxs (h ▸ hy)
  obtain ⟨e1, e2, e3, e4⟩ := insert_tail_eval m head node hnh hnp
  rcases List.eq_nil_or_concat xs with hxs | ⟨l, y, hxs⟩
  · subst hxs
    obtain ⟨h1, h2⟩ := (chainB_nil_iff m head head).mp hch
    rw [h2] at e1 e2
    simp only [if_pos rfl] at e2
    refine ⟨hndgoal, ?_⟩
    rw [List.nil_append, chainB_cons_iff, chainB_nil_iff]
    simp [e1, e2]
  · subst hxs
    simp only [List.concat_eq_append] at hnd hch hnxs hhx hprev hndgoal hn ⊢
    have hylast : lastD head (l ++ [y]) = y := lastD_concat head y l
    rw [hylast] at hprev
    have hyh : y ≠ head := by
      intro h
      exact hhx (by simp [h])
    rw [hprev] at e1 e2 e3 e4
    simp only [if_neg hyh] at e2
    have e3' := e3 hyh
    -- original chain: head →l→ y → head
    have hsplit := (chainB_append_iff m y l head head [] ).mp hch
    obtain ⟨c1, c2⟩ := hsplit
    obtain ⟨cy1, cy2⟩ := (chainB_nil_iff m y head).mp c2
    refine ⟨hndgoal, ?_⟩
    have : l ++ [y] ++ [node] = l ++ y :: [node] := by simp
    rw [this, chainB_append_iff]
    constructor
    · -- head →l→ y unchanged except y.prev (kept) and head.next (kept)
      have hl' : ∀ x ∈ l, insert_tail m head node x = m x := by
        intro x hx
        have hnl : (head :: (l ++ [y])).Nodup := hnd
        rw [List.nodup_cons, List.nodup_append] at hnl
        refine e4 x ?_ ?_ ?_
        · intro h; exact hnxs (by simp [h.symm, hx])
        · intro h; rw [h] at hx; exact hhx (List.mem_append_left _ hx)
        · intro h; exact hnl.2.2.2 hx (by simp [h])
      exact (chainB_congr m (insert_tail m head node) l head y
        (by rw [e2]) hl' (by rw [e3'])).mpr c1
    · rw [chainB_cons_iff, chainB_nil_iff]
      exact ⟨by rw [e3'], by rw [e1], by rw [e1], by rw [e2]⟩

/-- After `remove_node n`, the chain that led into `n` leads into `n`'s old
successor instead. -/
theorem chain_retarget_remove (m : Mem) (n : Nat)
    (hpq : (m n).prev ≠ (m n).next)
    (hpn : (m n).prev ≠ n) (hqn : (m n).next ≠ n) :
    ∀ (l : List Nat) (a : Nat),
      chainB m a l n = true → (a :: l).Nodup → (m n).next ∉ l → n ∉ a :: l →
      chainB (remove_node m n) a l ((m n).next) = true := by
  obtain ⟨⟨_, hne⟩, eO⟩ := remove_node_eval m n hpn hqn
  obtain ⟨eP, eQ⟩ := hne hpq
  intro l
  induction l with
  | nil =>
      intro a hc _ _ hna
      obtain ⟨h1, h2⟩ := (chainB_nil_iff m a n).mp hc
      rw [chainB_nil_iff]
      constructor
      · rw [← h2, eP]
      · rw [eQ, h2]
  | cons x t ih =>
      intro a hc hnd hq hna
      obtain ⟨h1, h2, h3⟩ := (chainB_cons_iff m a x n t).mp hc
      have hplast : (m n).prev = lastD x t := chain_end_prev m t x n h3
      have hax : a ∉ x :: t := (List.nodup_cons.mp hnd).1
      have hap : a ≠ (m n).prev := by
        rw [hplast]; intro h
        exact hax (h ▸ lastD_mem x t)
      rw [chainB_cons_iff]
      refine ⟨?_, ?_, ?_⟩
      · by_cases haq : a = (m n).next
        · rw [haq, eQ, ← haq, h1]
        · rw [eO a hap haq, h1]
      · rcases List.eq_nil_or_concat t with ht | ⟨t', y, ht⟩
        · subst ht
          simp only [lastD] at hplast
          rw [← hplast, eP]
          show (m (m n).prev).prev = a
          rw [hplast]
          exact h2
        · subst ht
          have hxp : x ≠ (m n).prev := by
            rw [hplast]
            simp only [List.concat_eq_append, lastD_concat]
            intro h
            have hxt : x ∉ t'.concat y := (List.nodup_cons.mp (List.nodup_cons.mp hnd).2).1
            exact hxt (by simp [List.concat_eq_append, h])
          have hxq : x ≠ (m n).next := by
            intro h; exact hq (by simp [h])
          rw [eO x hxp hxq, h2]
      · refine ih x h3 (List.nodup_cons.mp hnd).2 (fun h => hq (by simp [h])) ?_
        intro h
        exact hna (List.mem_cons_of_mem _ h)

/-- `remove_node` deletes an interior node from a well-formed list. -/
theorem remove_node_spec (m : Mem) (head n : Nat) (l r : List Nat)
    (hl : IsList m head (l ++ n :: r)) :
    IsList (remove_node m n) head (l ++ r) := by
  obtain ⟨hnd, hch⟩ := hl
  obtain ⟨c1, c2⟩ := (chainB_append_iff m n l head head r).mp hch
  have hp : (m n).prev = lastD head l := chain_end_prev m l head n c1
  have hq : (m n).next = r.headD head := chain_start_next m r n head c2
  -- membership and distinctness bookkeeping
  have hnd' := hnd
  rw [List.nodup_cons, List.nodup_append, List.nodup_cons] at hnd'
  obtain ⟨hhmem, hlnd, ⟨hnr, hrnd⟩, hdisj⟩ := hnd'
  have hhl : head ∉ l := fun h => hhmem (List.mem_append_left _ h)
  have hhr : head ∉ r := fun h => hhmem (List.mem_append_right _ (List.mem_cons_of_mem _ h))
  have hhn : head ≠ n := fun h => hhmem (List.mem_append_right _ (by simp [h]))
  have hnl : n ∉ l := fun h => (hdisj h) (by simp)
  have hpn : (m n).prev ≠ n := by
    rw [hp]; intro h
    rcases List.mem_cons.mp (h ▸ lastD_mem head l) with h' | h'
    · exact hhn h'.symm
    · exact hnl h'
  have hqn : (m n).next ≠ n := by
    rw [hq]; intro h
    cases r with
    | nil => exact hhn (by simpa using h)
    | cons z r' =>
        simp only [List.headD] at h
        exact hnr (by simp [← h])
  have hndgoal : (head :: (l ++ r)).Nodup := by
    have hsub : (head :: (l ++ r)).Sublist (head :: (l ++ n :: r)) := by
      refine List.Sublist.cons₂ head ?_
      exact List.Sublist.append_left (List.sublist_cons_self n r) l
    exact hnd.sublist hsub
  by_cases hlr : l = [] ∧ r = []
  · obtain ⟨hl0, hr0⟩ := hlr
    subst hl0; subst hr0
    simp only [lastD] at hp
    obtain ⟨⟨hself, _⟩, _⟩ := remove_node_eval m n hpn hqn
    have hpq : (m n).prev = (m n).next := by
      rw [hp, hq]; rfl
    have e := hself hpq
    refine ⟨hndgoal, ?_⟩
    rw [List.nil_append, chainB_nil_iff]
    rw [hp] at e
    simp [e]
  · have hpq : (m n).prev ≠ (m n).next := by
      rw [hp, hq]
      cases r with
      | nil =>
          simp only [List.headD]
          cases l with
          | nil => exact absurd ⟨rfl, rfl⟩ hlr
          | cons x t =>
              simp only [lastD]
              intro h
              exact hhl (by rw [← h]; exact lastD_mem x t)
      | cons z r' =>
          simp only [List.headD]
          intro h
          rcases List.mem_cons.mp (h ▸ lastD_mem head l) with h' | h'
          · exact hhr (h' ▸ (by simp : z ∈ z :: r'))
          · exact (hdisj h') (by simp)
    obtain ⟨⟨_, hne⟩, eO⟩ := remove_node_eval m n hpn hqn
    obtain ⟨eP, eQ⟩ := hne hpq
    refine ⟨hndgoal, ?_⟩
    cases r with
    | nil =>
        -- q = head: the retargeted prefix chain is the whole new cycle
        simp only [List.headD] at hq
        have := chain_retarget_remove m n hpq hpn hqn l head c1
          (by rw [List.nodup_cons] at hnd ⊢; exact ⟨hhl, hlnd⟩)
          (by rw [hq]; exact hhl)
          (by simp only [List.mem_cons]; rintro (h | h); exacts [hhn h.symm, hnl h])
        rw [hq] at this
        simpa using this
    | cons q' r' =>
        simp only [List.headD] at hq
        rw [chainB_append_iff]
        obtain ⟨d1, d2, d3⟩ := (chainB_cons_iff m n q' head r').mp c2
        constructor
        · have := chain_retarget_remove m n hpq hpn hqn l head c1
            (by rw [List.nodup_cons] at hnd ⊢; exact ⟨hhl, hlnd⟩)
            (by rw [hq]; intro h; exact (hdisj h) (by simp))
            (by simp only [List.mem_cons]; rintro (h | h); exacts [hhn h.symm, hnl h])
          rw [hq] at this
          exact this
        · -- the suffix chain q' → r' → head is untouched except q'.prev and head.prev
          have hqfix : remove_node m n q' = ⟨(m q').next, (m n).prev⟩ := by
            rw [← hq]; exact eQ
          refine (chainB_congr m (remove_node m n) r' q' head ?_ ?_ ?_).mpr d3
          · rw [hqfix]
          · intro y hy
            have hyp : y ≠ (m n).prev := by
              rw [hp]; intro h
              rcases List.mem_cons.mp (h ▸ lastD_mem head l) with h' | h'
              · exact hhr (h' ▸ List.mem_cons_of_mem _ hy)
              · exact (hdisj h') (by simp [hy])
            have hyq : y ≠ (m n).next := by
              rw [hq]; intro h
              exact (List.nodup_cons.mp hrnd).1 (h ▸ hy)
            exact eO y hyp hyq
          · by_cases hhp : head = (m n).prev
            · rw [← hhp] at eP
              rw [eP]
            · have hhq : head ≠ (m n).next := by
                rw [hq]; intro h
                exact hhr (h ▸ (by simp : q' ∈ q' :: r'))
              rw [eO head hhp hhq]

/-- `init_head` produces a well-formed empty list. -/
theorem init_head_spec (m : Mem) (head : Nat) : IsList (init_head m head) head [] := by
  refine ⟨List.nodup_singleton _, ?_⟩
  rw [chainB_nil_iff]
  constructor
  · simp [init_head, setNext, setPrev, store]
  · simp [init_head, setNext, setPrev, store]

theorem init_head_at (m : Mem) (head : Nat) : init_head m head head = ⟨head, head⟩ := by
  simp [init_head, setNext, setPrev, store]

theorem init_head_outside (m : Mem) (head x : Nat) (h : x ≠ head) :
    init_head m head x = m x := by
  simp [init_head, setNext, setPrev, store, h]

/-- A well-formed list depends only on the memory at its own nodes. -/
theorem IsList_congr (m m' : Mem) (head : Nat) (xs : List Nat)
    (hagree : ∀ x ∈ head :: xs, m' x = m x) (hl : IsList m head xs) :
    IsList m' head xs := by
  obtain ⟨hnd, hch⟩ := hl
  refine ⟨hnd, ?_⟩
  refine (chainB_congr m m' xs head head ?_ ?_ ?_).mpr hch
  · rw [hagree head (by simp)]
  · intro x hx; exact hagree x (by simp [hx])
  · rw [hagree head (by simp)]

/-- Redirecting the final link of a chain to a new endpoint. -/
theorem chain_retarget (m m' : Mem) (c nw : Nat) :
    ∀ (l : List Nat) (a : Nat),
      chainB m a l c = true → (a :: l).Nodup →
      (m' (lastD a l)).next = nw →
      (m' nw).prev = lastD a l →
      (∀ x ∈ a :: l, x ≠ lastD a l → (m' x).next = (m x).next) →
      (∀ x ∈ l, (m' x).prev = (m x).prev) →
      chainB m' a l nw = true := by
  intro l
  induction l with
  | nil =>
      intro a _ _ hlast hnew _ _
      rw [chainB_nil_iff]
      simp only [lastD] at hlast hnew
      exact ⟨hlast, hnew⟩
  | cons x t ih =>
      intro a hc hnd hlast hnew hkn hkp
      obtain ⟨h1, h2, h3⟩ := (chainB_cons_iff m a x c t).mp hc
      have hlv : lastD a (x :: t) = lastD x t := rfl
      have hax : a ∉ x :: t := (List.nodup_cons.mp hnd).1
      have halast : a ≠ lastD a (x :: t) := by
        rw [hlv]; intro h
        exact hax (h ▸ lastD_mem x t)
      rw [chainB_cons_iff]
      refine ⟨?_, ?_, ?_⟩
      · rw [hkn a (by simp) halast, h1]
      · rw [hkp x (by simp), h2]
      · refine ih x h3 (List.nodup_cons.mp hnd).2 (by rw [← hlv]; exact hlast)
          (by rw [← hlv]; exact hnew) ?_ ?_
        · intro y hy hyl
          exact hkn y (List.mem_cons_of_mem _ hy) (by rw [hlv]; exact hyl)
        · intro y hy
          exact hkp y (List.mem_cons_of_mem _ hy)

/-- `insert_node_after` is, store for store, `insert_head` with the reference
node as list head. -/
theorem insert_node_after_eq (m : Mem) (node ref : Nat) :
    insert_node_after m node ref = insert_head m ref node := rfl

/-- `insert_node_before` is, store for store, `insert_tail` with the reference
node as list head. -/
theorem insert_node_before_eq (m : Mem) (node ref : Nat) :
    insert_node_before m node ref = insert_tail m ref node := rfl

/-- `remove_head` returns the first node and deletes it. -/
theorem remove_head_spec (m : Mem) (head n : Nat) (xs : List Nat)
    (hl : IsList m head (n :: xs)) :
    (remove_head m head).2 = n ∧ IsList (remove_head m head).1 head xs := by
  obtain ⟨hnd, hch⟩ := hl
  have h1 : (m head).next = n := ((chainB_cons_iff m head n head xs).mp hch).1
  constructor
  · simp [remove_head, h1]
  · show IsList (remove_node m ((m head).next)) head xs
    rw [h1]
    exact remove_node_spec m head n [] xs ⟨hnd, hch⟩

/-- `remove_tail` returns the last node and deletes it. -/
theorem remove_tail_spec (m : Mem) (head n : Nat) (xs : List Nat)
    (hl : IsList m head (xs ++ [n])) :
    (remove_tail m head).2 = n ∧ IsList (remove_tail m head).1 head xs := by
  obtain ⟨hnd, hch⟩ := hl
  have h1 : (m head).prev = n := by
    have := chain_end_prev m (xs ++ [n]) head head hch
    rw [this, lastD_concat]
  constructor
  · simp [remove_tail, h1]
  · show IsList (remove_node m ((m head).prev)) head xs
    rw [h1]
    have := remove_node_spec m head n xs [] ⟨by simpa using hnd, by simpa using hch⟩
    simpa using this

/-- Inserting a fresh node after an interior reference node. -/
theorem insert_after_interior (m : Mem) (head ref n : Nat) (l r : List Nat)
    (hl : IsList m head (l ++ ref :: r)) (hn : n ∉ head :: (l ++ ref :: r)) :
    IsList (insert_head m ref n) head (l ++ ref :: n :: r) := by
  obtain ⟨hnd, hch⟩ := hl
  obtain ⟨c1, c2⟩ := (chainB_append_iff m ref l head head r).mp hch
  have hnd' := hnd
  rw [List.nodup_cons, List.nodup_append, List.nodup_cons] at hnd'
  obtain ⟨hhmem, hlnd, ⟨hrefr, hrnd⟩, hdisj⟩ := hnd'
  have hhl : head ∉ l := fun h => hhmem (List.mem_append_left _ h)
  have hhr : head ∉ r := fun h => hhmem (List.mem_append_right _ (List.mem_cons_of_mem _ h))
  have hhref : head ≠ ref := fun h => hhmem (List.mem_append_right _ (by simp [h]))
  have hrefl : ref ∉ l := fun h => (hdisj h) (by simp)
  have hnh : n ≠ head := fun h => hn (by simp [h])
  have hnref : n ≠ ref := fun h => hn (by simp [h])
  have hnl : n ∉ l := fun h => hn (by simp [h])
  have hnr : n ∉ r := fun h => hn (by simp [h])
  have hf : (m ref).next = r.headD head := chain_start_next m r ref head c2
  have hfref : (m ref).next ≠ ref := by
    rw [hf]; cases r with
    | nil => simpa using hhref
    | cons q r' =>
        simp only [List.headD]
        intro h
        exact hrefr (by simp [h])
  have hnf : n ≠ (m ref).next := by
    rw [hf]; cases r with
    | nil => simpa using hnh
    | cons q r' => simpa using fun h => hnr (by simp [h])
  obtain ⟨e1, e2, e3, e4⟩ := insert_head_eval m ref n hnref hnf
  simp only [if_neg hfref] at e2
  have e3' := e3 hfref
  have hndgoal : (head :: (l ++ ref :: n :: r)).Nodup := by
    rw [List.nodup_cons, List.nodup_append, List.nodup_cons] at *
    refine ⟨?_, hlnd, ⟨?_, List.nodup_cons.mpr ⟨hnr, hrnd⟩⟩, ?_⟩
    · simp only [List.mem_append, List.mem_cons]
      rintro (h | h | h | h)
      · exact hhl h
      · exact hhref h
      · exact hnh h.symm
      · exact hhr h
    · simp only [List.mem_cons]
      rintro (h | h)
      · exact hnref h.symm
      · exact hrefr h
    · intro y hy
      simp only [List.mem_cons]
      rintro (h | h | h)
      · exact (hdisj hy) (by simp [h])
      · exact hnl (h ▸ hy)
      · exact (hdisj hy) (by simp [h])
  refine ⟨hndgoal, ?_⟩
  rw [chainB_append_iff]
  constructor
  · -- the prefix chain head → l → ref is untouched in every field it reads
    refine (chainB_congr m (insert_head m ref n) l head ref ?_ ?_ ?_).mpr c1
    · by_cases hhf : head = (m ref).next
      · rw [← hhf] at e3'; rw [e3']
      · exact congrArg LNode.next
          (e4 head (fun h => hnh h.symm) (fun h => hhref h) hhf)
    · intro x hx
      refine e4 x ?_ ?_ ?_
      · intro h; exact hnl (h ▸ hx)
      · intro h; exact hrefl (h ▸ hx)
      · rw [hf]; cases r with
        | nil =>
            simp only [List.headD]
            intro h
            exact hhl (h ▸ hx)
        | cons q r' =>
            simp only [List.headD]
            intro h
            exact (hdisj (h ▸ hx)) (by simp)
    · rw [e2]
  · rw [chainB_cons_iff]
    refine ⟨by rw [e2], by rw [e1], ?_⟩
    cases r with
    | nil =>
        simp only [List.headD] at hf
        rw [chainB_nil_iff]
        constructor
        · rw [e1]; exact hf
        · rw [hf] at e3'; rw [e3']
    | cons q r' =>
        simp only [List.headD] at hf
        obtain ⟨d1, d2, d3⟩ := (chainB_cons_iff m ref q head r').mp c2
        rw [chainB_cons_iff]
        refine ⟨by rw [e1]; exact hf, by rw [hf] at e3'; rw [e3'], ?_⟩
        refine (chainB_congr m (insert_head m ref n) r' q head ?_ ?_ ?_).mpr d3
        · rw [hf] at e3'; rw [e3']
        · intro y hy
          have hyr : y ∈ q :: r' := List.mem_cons_of_mem _ hy
          refine e4 y ?_ ?_ ?_
          · intro h; exact hnr (h ▸ hyr)
          · intro h; exact hrefr (h ▸ hyr)
          · rw [hf]; intro h
            exact (List.nodup_cons.mp hrnd).1 (h ▸ hy)
        · refine congrArg LNode.prev (e4 head (fun h => hnh h.symm) (fun h => hhref h) ?_)
          rw [hf]; intro h
          exact hhr (h ▸ (by simp : q ∈ q :: r'))

/-- Inserting a fresh node before an interior reference node. -/
theorem insert_before_interior (m : Mem) (head ref n : Nat) (l r : List Nat)
    (hl : IsList m head (l ++ ref :: r)) (hn : n ∉ head :: (l ++ ref :: r)) :
    IsList (insert_tail m ref n) head (l ++ n :: ref :: r) := by
  obtain ⟨hnd, hch⟩ := hl
  obtain ⟨c1, c2⟩ := (chainB_append_iff m ref l head head r).mp hch
  have hnd' := hnd
  rw [List.nodup_cons, List.nodup_append, List.nodup_cons] at hnd'
  obtain ⟨hhmem, hlnd, ⟨hrefr, hrnd⟩, hdisj⟩ := hnd'
  have hhl : head ∉ l := fun h => hhmem (List.mem_append_left _ h)
  have hhr : head ∉ r := fun h => hhmem (List.mem_append_right _ (List.mem_cons_of_mem _ h))
  have hhref : head ≠ ref := fun h => hhmem (List.mem_append_right _ (by simp [h]))
  have hrefl : ref ∉ l := fun h => (hdisj h) (by simp)
  have hnh : n ≠ head := fun h => hn (by simp [h])
  have hnref : n ≠ ref := fun h => hn (by simp [h])
  have hnl : n ∉ l := fun h => hn (by simp [h])
  have hnr : n ∉ r := fun h => hn (by simp [h])
  have hp : (m ref).prev = lastD head l := chain_end_prev m l head ref c1
  have hpmem : (m ref).prev ∈ head :: l := hp ▸ lastD_mem head l
  have hpref : (m ref).prev ≠ ref := by
    intro h
    rcases List.mem_cons.mp (h ▸ hpmem) with h' | h'
    · exact hhref h'.symm
    · exact hrefl h'
  have hnp : n ≠ (m ref).prev := by
    intro h
    rcases List.mem_cons.mp (h ▸ hpmem) with h' | h'
    · exact hnh h'
    · exact hnl h'
  obtain ⟨e1, e2, e3, e4⟩ := insert_tail_eval m ref n hnref hnp
  simp only [if_neg hpref] at e2
  have e3' := e3 hpref
  have hndgoal : (head :: (l ++ n :: ref :: r)).Nodup := by
    rw [List.nodup_cons, List.nodup_append, List.nodup_cons] at *
    refine ⟨?_, hlnd, ⟨?_, List.nodup_cons.mpr ⟨hrefr, hrnd⟩⟩, ?_⟩
    · simp only [List.mem_append, List.mem_cons]
      rintro (h | h | h | h)
      · exact hhl h
      · exact hnh h.symm
      · exact hhref h
      · exact hhr h
    · simp only [List.mem_cons]
      rintro (h | h)
      · exact hnref h
      · exact hnr h
    · intro y hy
      simp only [List.mem_cons]
      rintro (h | h | h)
      · exact hnl (h ▸ hy)
      · exact (hdisj hy) (by simp [h])
      · exact (hdisj hy) (by simp [h])
  refine ⟨hndgoal, ?_⟩
  have hsplit : l ++ n :: ref :: r = l ++ n :: (ref :: r) := rfl
  rw [hsplit, chainB_append_iff]
  constructor
  · -- retarget the prefix chain head → l from ref to n
    refine chain_retarget m (insert_tail m ref n) ref n l head c1
      (by rw [List.nodup_cons]; exact ⟨hhl, hlnd⟩) ?_ ?_ ?_ ?_
    · rw [← hp, e3']
    · rw [e1, hp]
    · intro x hx hxl
      have hxp : x ≠ (m ref).prev := by rw [hp]; exact hxl
      refine congrArg LNode.next (e4 x ?_ ?_ hxp)
      · intro h
        rcases List.mem_cons.mp (h ▸ hx) with h' | h'
        · exact hnh h'
        · exact hnl h'
      · intro h
        rcases List.mem_cons.mp (h ▸ hx) with h' | h'
        · exact hhref h'.symm
        · exact hrefl h'
    · intro x hx
      by_cases hxp : x = (m ref).prev
      · rw [hxp, e3']
      · refine congrArg LNode.prev (e4 x ?_ ?_ hxp)
        · intro h; exact hnl (h ▸ hx)
        · intro h; exact hrefl (h ▸ hx)
  · rw [chainB_cons_iff]
    refine ⟨by rw [e1], by rw [e2], ?_⟩
    refine (chainB_congr m (insert_tail m ref n) r ref head ?_ ?_ ?_).mpr c2
    · rw [e2]
    · intro y hy
      refine e4 y ?_ ?_ ?_
      · intro h; exact hnr (h ▸ hy)
      · intro h; exact hrefr (h ▸ hy)
      · intro h
        have hym : y ∈ head :: l := by rw [h]; exact hpmem
        rcases List.mem_cons.mp hym with h' | h'
        · exact hhr (h' ▸ hy)
        · exact (hdisj h') (List.mem_cons_of_mem _ hy)
    · by_cases hhp : head = (m ref).prev
      · rw [← hhp] at e3'
        rw [e3']
      · refine congrArg LNode.prev (e4 head (fun h => hnh h.symm) hhref hhp)

theorem walk_self (m : Mem) (head : Nat) : ∀ fuel, walk m head fuel head = [] := by
  intro fuel
  cases fuel with
  | zero => rfl
  | succ f => simp [walk]

theorem get_size_loop_self (m : Mem) (head : Nat) :
    ∀ fuel, get_size_loop m head fuel head = 0 := by
  intro fuel
  cases fuel with
  | zero => rfl
  | succ f => simp [get_size_loop]

theorem walk_chain (m : Mem) (head : Nat) :
    ∀ (xs : List Nat) (a fuel : Nat),
      chainB m a xs head = true → head ∉ a :: xs → xs.length + 1 ≤ fuel →
      walk m head fuel a = a :: xs := by
  intro xs
  induction xs with
  | nil =>
      intro a fuel hc hm hf
      obtain ⟨h1, _⟩ := (chainB_nil_iff m a head).mp hc
      have hah : a ≠ head := fun h => hm (by simp [h])
      obtain ⟨f, rfl⟩ : ∃ f, fuel = f + 1 := ⟨fuel - 1, by omega⟩
      simp [walk, hah, h1, walk_self]
  | cons x t ih =>
      intro a fuel hc hm hf
      obtain ⟨h1, _, h3⟩ := (chainB_cons_iff m a x head t).mp hc
      have hah : a ≠ head := fun h => hm (by simp [h])
      obtain ⟨f, rfl⟩ : ∃ f, fuel = f + 1 := ⟨fuel - 1, by omega⟩
      have := ih x f h3 (fun h => hm (List.mem_cons_of_mem _ h)) (by simpa using Nat.lt_succ_iff.mp hf)
      simp [walk, hah, h1, this]

theorem get_size_loop_chain (m : Mem) (head : Nat) :
    ∀ (xs : List Nat) (a fuel : Nat),
      chainB m a xs head = true → head ∉ a :: xs → xs.length + 1 ≤ fuel →
      get_size_loop m head fuel a = xs.length + 1 := by
  intro xs
  induction xs with
  | nil =>
      intro a fuel hc hm hf
      obtain ⟨h1, _⟩ := (chainB_nil_iff m a head).mp hc
      have hah : a ≠ head := fun h => hm (by simp [h])
      obtain ⟨f, rfl⟩ : ∃ f, fuel = f + 1 := ⟨fuel - 1, by omega⟩
      simp [get_size_loop, hah, h1, get_size_loop_self]
  | cons x t ih =>
      intro a fuel hc hm hf
      obtain ⟨h1, _, h3⟩ := (chainB_cons_iff m a x head t).mp hc
      have hah : a ≠ head := fun h => hm (by simp [h])
      obtain ⟨f, rfl⟩ : ∃ f, fuel = f + 1 := ⟨fuel - 1, by omega⟩
      have := ih x f h3 (fun h => hm (List.mem_cons_of_mem _ h)) (by simpa using Nat.lt_succ_iff.mp hf)
      simp [get_size_loop, hah, h1, this]
      omega

/-- Under the representation invariant, `reachable` computes exactly the
head-plus-members view of the list. -/
theorem reachable_eq (m : Mem) (head : Nat) (xs : List Nat) (fuel : Nat)
    (hl : IsList m head xs) (hf : xs.length + 1 ≤ fuel) :
    reachable m head fuel = head :: xs := by
  obtain ⟨hnd, hch⟩ := hl
  unfold reachable
  cases xs with
  | nil =>
      obtain ⟨h1, _⟩ := (chainB_nil_iff m head head).mp hch
      rw [h1, walk_self]
  | cons x t =>
      obtain ⟨h1, h2, h3⟩ := (chainB_cons_iff m head x head t).mp hch
      rw [h1]
      have hm : head ∉ x :: t := (List.nodup_cons.mp hnd).1
      rw [walk_chain m head t x fuel h3 hm (by simp only [List.length_cons] at hf; omega)]

/-- Under the representation invariant, `get_size` returns the number of list
members. -/
theorem get_size_eq (m : Mem) (head : Nat) (xs : List Nat) (fuel : Nat)
    (hl : IsList m head xs) (hf : xs.length + 1 ≤ fuel) :
    get_size m head fuel = xs.length := by
  obtain ⟨hnd, hch⟩ := hl
  unfold get_size
  cases xs with
  | nil =>
      obtain ⟨h1, _⟩ := (chainB_nil_iff m head head).mp hch
      rw [h1, get_size_loop_self]
      rfl
  | cons x t =>
      obtain ⟨h1, h2, h3⟩ := (chainB_cons_iff m head x head t).mp hch
      rw [h1]
      have hm : head ∉ x :: t := (List.nodup_cons.mp hnd).1
      rw [get_size_loop_chain m head t x fuel h3 hm (by simp only [List.length_cons] at hf; omega)]
      simp

/-- Under the representation invariant, `is_empty` means no members. -/
theorem is_empty_iff (m : Mem) (head : Nat) (xs : List Nat) (hl : IsList m head xs) :
    (is_empty m head = true ↔ xs = []) := by
  obtain ⟨hnd, hch⟩ := hl
  cases xs with
  | nil =>
      obtain ⟨h1, _⟩ := (chainB_nil_iff m head head).mp hch
      simp [is_empty, h1]
  | cons x t =>
      obtain ⟨h1, _, _⟩ := (chainB_cons_iff m head x head t).mp hch
      have hm : head ∉ x :: t := (List.nodup_cons.mp hnd).1
      have : x ≠ head := fun h => hm (by simp [h])
      simp [is_empty, h1, this]

theorem chain_last_next (m : Mem) (b : Nat) :
    ∀ (xs : List Nat) (a : Nat), chainB m a xs b = true → (m (lastD a xs)).next = b := by
  intro xs
  induction xs with
  | nil =>
      intro a hc
      exact ((chainB_nil_iff m a b).mp hc).1
  | cons x t ih =>
      intro a hc
      exact ih x ((chainB_cons_iff m a x b t).mp hc).2.2

theorem chain_links (m : Mem) :
    ∀ (xs : List Nat) (a b : Nat), chainB m a xs b = true →
      ∀ n ∈ xs, (m ((m n).prev)).next = n ∧ (m ((m n).next)).prev = n := by
  intro xs
  induction xs with
  | nil => intro a b _ n hn; cases hn
  | cons x t ih =>
      intro a b hc n hn
      obtain ⟨h1, h2, h3⟩ := (chainB_cons_iff m a x b t).mp hc
      rcases List.mem_cons.mp hn with h | h
      · subst h
        constructor
        · rw [h2, h1]
        · cases t with
          | nil =>
              obtain ⟨g1, g2⟩ := (chainB_nil_iff m n b).mp h3
              rw [g1, g2]
          | cons y t' =>
              obtain ⟨g1, g2, _⟩ := (chainB_cons_iff m n y b t').mp h3
              rw [g1, g2]
      · exact ih x b h3 n h

/-- Double consistency: both round trips through a neighbour return to the
node, for every node of the cycle including the head. -/
theorem IsList_backforth (m : Mem) (head : Nat) (xs : List Nat) (hl : IsList m head xs) :
    ∀ n ∈ head :: xs, (m ((m n).prev)).next = n ∧ (m ((m n).next)).prev = n := by
  obtain ⟨hnd, hch⟩ := hl
  intro n hn
  rcases List.mem_cons.mp hn with h | h
  · subst h
    constructor
    · rw [chain_end_prev m xs n n hch, chain_last_next m n xs n hch]
    · cases xs with
      | nil =>
          obtain ⟨g1, g2⟩ := (chainB_nil_iff m n n).mp hch
          rw [g1, g2]
      | cons y t =>
          obtain ⟨g1, g2, _⟩ := (chainB_cons_iff m n y n t).mp hch
          rw [g1, g2]
  · exact chain_links m xs head head hch n h

theorem spliceAfter_eq (ref n : Nat) :
    ∀ (l r : List Nat), ref ∉ l → spliceAfter ref n (l ++ ref :: r) = l ++ ref :: n :: r := by
  intro l
  induction l with
  | nil => intro r _; simp [spliceAfter]
  | cons x t ih =>
      intro r hm
      have hx : x ≠ ref := fun h => hm (by simp [h])
      simp only [List.cons_append, spliceAfter, if_neg hx]
      show x :: spliceAfter ref n (t ++ ref :: r) = x :: (t ++ ref :: n :: r)
      rw [ih r (fun h => hm (List.mem_cons_of_mem _ h))]

theorem spliceBefore_eq (ref n : Nat) :
    ∀ (l r : List Nat), ref ∉ l → spliceBefore ref n (l ++ ref :: r) = l ++ n :: ref :: r := by
  intro l
  induction l with
  | nil => intro r _; simp [spliceBefore]
  | cons x t ih =>
      intro r hm
      have hx : x ≠ ref := fun h => hm (by simp [h])
      simp only [List.cons_append, spliceBefore, if_neg hx]
      show x :: spliceBefore ref n (t ++ ref :: r) = x :: (t ++ n :: ref :: r)
      rw [ih r (fun h => hm (List.mem_cons_of_mem _ h))]

/-- One legal operation preserves the representation invariant, tracking the
abstract member list. -/
theorem applyOp_spec (head : Nat) (m : Mem) (xs : List Nat) (op : LLOp)
    (hl : IsList m head xs) (hok : opOkB head xs op = true) :
    IsList (applyOp head m op) head (applyAbs head xs op) := by
  cases op with
  | insHead n =>
      simp only [opOkB, decide_eq_true_eq] at hok
      exact insert_head_spec m head n xs hl hok
  | insTail n =>
      simp only [opOkB, decide_eq_true_eq] at hok
      exact insert_tail_spec m head n xs hl hok
  | insAfter n ref =>
      simp only [opOkB, Bool.and_eq_true, decide_eq_true_eq] at hok
      obtain ⟨hn, href⟩ := hok
      simp only [applyOp, applyAbs, insert_node_after_eq]
      rcases List.mem_cons.mp href with h | h
      · rw [if_pos h, h]
        exact insert_head_spec m head n xs hl hn
      · have hrh : ref ≠ head := by
          intro he
          exact (List.nodup_cons.mp hl.1).1 (he ▸ h)
        rw [if_neg hrh]
        obtain ⟨l, r, rfl⟩ := List.append_of_mem h
        have hrl : ref ∉ l := by
          have := hl.1
          rw [List.nodup_cons, List.nodup_append] at this
          intro hc
          exact (this.2.2.2 hc) (by simp)
        rw [spliceAfter_eq ref n l r hrl]
        exact insert_after_interior m head ref n l r hl hn
  | insBefore n ref =>
      simp only [opOkB, Bool.and_eq_true, decide_eq_true_eq] at hok
      obtain ⟨hn, href⟩ := hok
      simp only [applyOp, applyAbs, insert_node_before_eq]
      rcases List.mem_cons.mp href with h | h
      · rw [if_pos h, h]
        exact insert_tail_spec m head n xs hl hn
      · have hrh : ref ≠ head := by
          intro he
          exact (List.nodup_cons.mp hl.1).1 (he ▸ h)
        rw [if_neg hrh]
        obtain ⟨l, r, rfl⟩ := List.append_of_mem h
        have hrl : ref ∉ l := by
          have := hl.1
          rw [List.nodup_cons, List.nodup_append] at this
          intro hc
          exact (this.2.2.2 hc) (by simp)
        rw [spliceBefore_eq ref n l r hrl]
        exact insert_before_interior m head ref n l r hl hn
  | rmHead =>
      simp only [opOkB, Bool.not_eq_true'] at hok
      cases xs with
      | nil => simp [List.isEmpty] at hok
      | cons x t =>
          simp only [applyOp, applyAbs, List.tail_cons]
          exact (remove_head_spec m head x t hl).2
  | rmTail =>
      simp only [opOkB, Bool.not_eq_true'] at hok
      rcases List.eq_nil_or_concat xs with h | ⟨l, y, h⟩
      · subst h; simp [List.isEmpty] at hok
      · subst h
        simp only [applyOp, applyAbs, List.concat_eq_append, List.dropLast_concat]
        exact (remove_tail_spec m head y l (by simpa using hl)).2
  | rmNode n =>
      simp only [opOkB, decide_eq_true_eq] at hok
      obtain ⟨l, r, rfl⟩ := List.append_of_mem hok
      have hnl : n ∉ l := by
        have := hl.1
        rw [List.nodup_cons, List.nodup_append] at this
        intro hc
        exact (this.2.2.2 hc) (by simp)
      simp only [applyOp, applyAbs]
      rw [List.erase_append_right (n :: r) hnl, List.erase_cons_head]
      exact remove_node_spec m head n l r hl

/-- A legal operation sequence keeps the list well formed, with the member
list evolving abstractly. -/
theorem memExec_spec (head : Nat) :
    ∀ (ops : List LLOp) (m : Mem) (xs : List Nat),
      IsList m head xs → legalB head xs ops = true →
      IsList (memExec head m ops) head (absExec head xs ops) := by
  intro ops
  induction ops with
  | nil => intro m xs hl _; exact hl
  | cons op t ih =>
      intro m xs hl hleg
      simp only [legalB, Bool.and_eq_true] at hleg
      exact ih (applyOp head m op) (applyAbs head xs op)
        (applyOp_spec head m xs op hl hleg.1) hleg.2

theorem insertAllTail_spec (head : Nat) :
    ∀ (ns : List Nat) (m : Mem) (ys : List Nat),
      IsList m head ys → (head :: (ys ++ ns)).Nodup →
      IsList (insertAllTail m head ns) head (ys ++ ns) := by
  intro ns
  induction ns with
  | nil => intro m ys hl _; simpa using hl
  | cons n t ih =>
      intro m ys hl hnd
      have hn : n ∉ head :: ys := by
        rw [List.nodup_cons] at hnd
        simp only [List.mem_cons]
        rintro (h | h)
        · exact hnd.1 (by simp [← h])
        · have := hnd.2
          rw [List.nodup_append] at this
          exact (this.2.2 h) (by simp)
      have step := insert_tail_spec m head n ys hl hn
      have hre : ys ++ n :: t = (ys ++ [n]) ++ t := by simp
      show IsList (insertAllTail (insert_tail m head n) head t) head (ys ++ n :: t)
      rw [hre]
      refine ih (insert_tail m head n) (ys ++ [n]) step ?_
      rw [← hre]
      exact hnd

theorem insertAllHead_spec (head : Nat) :
    ∀ (ns : List Nat) (m : Mem) (ys : List Nat),
      IsList m head ys → (head :: (ns ++ ys)).Nodup →
      IsList (insertAllHead m head ns) head (ns.reverse ++ ys) := by
  intro ns
  induction ns with
  | nil => intro m ys hl _; simpa using hl
  | cons n t ih =>
      intro m ys hl hnd
      have hn : n ∉ head :: ys := by
        rw [List.nodup_cons] at hnd
        simp only [List.mem_cons]
        rintro (h | h)
        · exact hnd.1 (by simp [← h])
        · have := hnd.2
          simp only [List.cons_append, List.nodup_cons] at this
          exact this.1 (List.mem_append_right _ h)
      have step := insert_head_spec m head n ys hl hn
      have hperm : (head :: (t ++ n :: ys)).Perm (head :: ((n :: t) ++ ys)) :=
        List.Perm.cons head List.perm_middle
      have hnd' : (head :: (t ++ n :: ys)).Nodup := hperm.nodup_iff.mpr hnd
      have := ih (insert_head m head n) (n :: ys) step hnd'
      show IsList (insertAllHead (insert_head m head n) head t) head ((n :: t).reverse ++ ys)
      have hre : (n :: t).reverse ++ ys = t.reverse ++ (n :: ys) := by simp
      rw [hre]
      exact this

theorem removeAllHead_spec (head : Nat) :
    ∀ (xs : List Nat) (m : Mem),
      IsList m head xs →
      (removeAllHead m head xs.length).2 = xs ∧
        IsList (removeAllHead m head xs.length).1 head [] := by
  intro xs
  induction xs with
  | nil => intro m hl; exact ⟨rfl, hl⟩
  | cons x t ih =>
      intro m hl
      obtain ⟨h2, h1⟩ := remove_head_spec m head x t hl
      have := ih (remove_head m head).1 h1
      simp only [List.length_cons, removeAllHead]
      exact ⟨by rw [h2, this.1], this.2⟩

/-- Frame: nodes outside the list and distinct from the inserted node are
untouched by `insert_tail`. -/
theorem insert_tail_frame (m : Mem) (head node : Nat) (ys : List Nat)
    (hl : IsList m head ys) (hn : node ∉ head :: ys) :
    ∀ z, z ∉ head :: ys → z ≠ node → insert_tail m head node z = m z := by
  intro z hz hzn
  have hnh : node ≠ head := fun h => hn (by simp [h])
  have hpmem : (m head).prev ∈ head :: ys :=
    chain_end_prev m ys head head hl.2 ▸ lastD_mem head ys
  have hnp : node ≠ (m head).prev := fun h => hn (h ▸ hpmem)
  refine (insert_tail_eval m head node hnh hnp).2.2.2 z hzn ?_ ?_
  · intro h; exact hz (by simp [h])
  · intro h; exact hz (h ▸ hpmem)

/-- Frame: nodes outside the list are untouched by `remove_head`. -/
theorem remove_head_frame (m : Mem) (head x : Nat) (rest : List Nat)
    (hl : IsList m head (x :: rest)) :
    ∀ z, z ∉ head :: x :: rest → (remove_head m head).1 z = m z := by
  intro z hz
  obtain ⟨hnd, hch⟩ := hl
  obtain ⟨h1, h2, h3⟩ := (chainB_cons_iff m head x head rest).mp hch
  have hxh : x ≠ head := by
    intro h
    exact (List.nodup_cons.mp hnd).1 (by simp [h])
  have hq : (m x).next = rest.headD head := chain_start_next m rest x head h3
  have hqmem : (m x).next ∈ head :: x :: rest := by
    rw [hq]; cases rest with
    | nil => simp
    | cons y t => simp
  have hqx : (m x).next ≠ x := by
    rw [hq]; cases rest with
    | nil => simpa using hxh.symm
    | cons y t =>
        simp only [List.headD]
        intro h
        have := (List.nodup_cons.mp (List.nodup_cons.mp hnd).2).1
        exact this (by simp [← h])
  have hpx : (m x).prev ≠ x := by rw [h2]; exact hxh.symm
  show remove_node m ((m head).next) z = m z
  rw [h1]
  refine (remove_node_eval m x hpx hqx).2 z ?_ ?_
  · rw [h2]; intro h; exact hz (by simp [h])
  · intro h; exact hz (h ▸ hqmem)

/-- `send_free_buf` moves the entire local queue, in order, onto the end of
the shared free-buffer queue, and touches no other node. -/
theorem send_free_buf_spec :
    ∀ (xs : List Nat) (m : Mem) (ys : List Nat) (fuel : Nat),
      IsList m addrLocalFreeBufQueue xs →
      IsList m addrFreeBufQueue ys →
      List.Disjoint (addrLocalFreeBufQueue :: xs) (addrFreeBufQueue :: ys) →
      xs.length ≤ fuel →
      IsList (send_free_buf fuel m) addrLocalFreeBufQueue [] ∧
      IsList (send_free_buf fuel m) addrFreeBufQueue (ys ++ xs) := by
  intro xs
  induction xs with
  | nil =>
      intro m ys fuel hloc hsh _ _
      cases fuel with
      | zero => exact ⟨hloc, by simpa using hsh⟩
      | succ f =>
          have he : is_empty m addrLocalFreeBufQueue = true :=
            (is_empty_iff m addrLocalFreeBufQueue [] hloc).mpr rfl
          simp only [send_free_buf, if_pos he]
          exact ⟨hloc, by simpa using hsh⟩
  | cons x t ih =>
      intro m ys fuel hloc hsh hdisj hf
      obtain ⟨f, rfl⟩ : ∃ f, fuel = f + 1 := ⟨fuel - 1, by simp at hf; omega⟩
      have he : ¬ is_empty m addrLocalFreeBufQueue = true := by
        rw [is_empty_iff m addrLocalFreeBufQueue (x :: t) hloc]
        simp
      simp only [send_free_buf, if_neg he]
      -- one step: remove x from the local queue, append it to the shared one
      obtain ⟨hout, hloc1⟩ := remove_head_spec m addrLocalFreeBufQueue x t hloc
      have hsh1 : IsList (remove_head m addrLocalFreeBufQueue).1 addrFreeBufQueue ys := by
        refine IsList_congr m _ addrFreeBufQueue ys ?_ hsh
        intro z hz
        refine remove_head_frame m addrLocalFreeBufQueue x t hloc z ?_
        intro hmem
        exact (hdisj hmem) hz
      have hxsh : x ∉ addrFreeBufQueue :: ys :=
        fun h => (hdisj (by simp)) h
      have hsh2 : IsList
          (insert_tail (remove_head m addrLocalFreeBufQueue).1 addrFreeBufQueue x)
          addrFreeBufQueue (ys ++ [x]) :=
        insert_tail_spec _ addrFreeBufQueue x ys hsh1 hxsh
      have hloc2 : IsList
          (insert_tail (remove_head m addrLocalFreeBufQueue).1 addrFreeBufQueue x)
          addrLocalFreeBufQueue t := by
        refine IsList_congr _ _ addrLocalFreeBufQueue t ?_ hloc1
        intro z hz
        have hzt : z ∈ addrLocalFreeBufQueue :: x :: t := by
          rcases List.mem_cons.mp hz with h | h
          · simp [h]
          · simp [List.mem_cons_of_mem, h]
        refine insert_tail_frame _ addrFreeBufQueue x ys hsh1 hxsh z ?_ ?_
        · intro h; exact (hdisj hzt) h
        · intro h
          have := hloc.1
          rw [List.nodup_cons, List.nodup_cons] at this
          rcases List.mem_cons.mp hz with h' | h'
          · exact this.1 (by simp [← h', h])
          · exact this.2.1 (h ▸ h')
      have hdisj2 : List.Disjoint (addrLocalFreeBufQueue :: t) (addrFreeBufQueue :: (ys ++ [x])) := by
        intro z hz hz'
        have hzt : z ∈ addrLocalFreeBufQueue :: x :: t := by
          rcases List.mem_cons.mp hz with h | h
          · simp [h]
          · simp [List.mem_cons_of_mem, h]
        rcases List.mem_cons.mp hz' with h | h
        · exact (hdisj hzt) (by simp [h])
        · rcases List.mem_append.mp h with h' | h'
          · exact (hdisj hzt) (by simp [h'])
          · have hzx : z = x := by simpa using h'
            have := hloc.1
            rw [List.nodup_cons, List.nodup_cons] at this
            rcases List.mem_cons.mp hz with h'' | h''
            · exact this.1 (by simp [← h'', hzx])
            · exact this.2.1 (hzx ▸ h'')
      rw [hout]
      have := ih _ (ys ++ [x]) f hloc2 hsh2 hdisj2 (by simp at hf ⊢; omega)
      exact ⟨this.1, by simpa using this.2⟩

/-- While the release channel is busy, a sequence of `evt_drop` calls only
accumulates the buffers, in order, on the local free queue: no ring occurs, no
flag changes, and the shared free queue is untouched. -/
theorem evt_drop_busy_fold (fuel : Nat) :
    ∀ (bufs : List Nat) (s : MmState) (acc ys : List Nat),
      IsList s.mem addrLocalFreeBufQueue acc →
      IsList s.mem addrFreeBufQueue ys →
      List.Disjoint (addrLocalFreeBufQueue :: (acc ++ bufs)) (addrFreeBufQueue :: ys) →
      (addrLocalFreeBufQueue :: (acc ++ bufs)).Nodup →
      s.ipcc.c1Flag c1.IPCC_MM_RELEASE_BUFFER_CHANNEL = true →
      IsList (bufs.foldl (evt_drop fuel) s).mem addrLocalFreeBufQueue (acc ++ bufs) ∧
      IsList (bufs.foldl (evt_drop fuel) s).mem addrFreeBufQueue ys ∧
      (bufs.foldl (evt_drop fuel) s).ipcc.c1Flag = s.ipcc.c1Flag ∧
      (bufs.foldl (evt_drop fuel) s).ipcc.c1Rings = s.ipcc.c1Rings ∧
      (bufs.foldl (evt_drop fuel) s).ipcc.c2Flag = s.ipcc.c2Flag := by
  intro bufs
  induction bufs with
  | nil =>
      intro s acc ys hloc hsh _ _ _
      exact ⟨by simpa using hloc, hsh, rfl, rfl, rfl⟩
  | cons b bt ih =>
      intro s acc ys hloc hsh hdisj hnd hbusy
      have hstep : evt_drop fuel s b =
          { mem := insert_tail s.mem addrLocalFreeBufQueue b
            ipcc := c1_set_tx_channel s.ipcc c1.IPCC_MM_RELEASE_BUFFER_CHANNEL true } := by
        simp [evt_drop, c1_is_active_flag, hbusy]
      have hbacc : b ∉ addrLocalFreeBufQueue :: acc := by
        intro h
        rcases List.mem_cons.mp h with h' | h'
        · rw [List.nodup_cons] at hnd
          exact hnd.1 (by simp [← h'])
        · have := hnd
          rw [List.nodup_cons] at this
          have := this.2
          rw [List.nodup_append] at this
          exact (this.2.2 h') (by simp)
      have hloc1 : IsList (insert_tail s.mem addrLocalFreeBufQueue b)
          addrLocalFreeBufQueue (acc ++ [b]) :=
        insert_tail_spec s.mem addrLocalFreeBufQueue b acc hloc hbacc
      have hsh1 : IsList (insert_tail s.mem addrLocalFreeBufQueue b)
          addrFreeBufQueue ys := by
        refine IsList_congr s.mem _ addrFreeBufQueue ys ?_ hsh
        intro z hz
        refine insert_tail_frame s.mem addrLocalFreeBufQueue b acc hloc hbacc z ?_ ?_
        · intro h
          refine (hdisj ?_) hz
          rcases List.mem_cons.mp h with h' | h'
          · simp [h']
          · simp [List.mem_append_left, h']
        · intro h
          exact (hdisj (by simp [h])) hz
      have hre : acc ++ b :: bt = (acc ++ [b]) ++ bt := by simp
      rw [List.foldl_cons, hstep]
      rw [hre] at hdisj hnd ⊢
      have hrec := ih ⟨insert_tail s.mem addrLocalFreeBufQueue b,
          c1_set_tx_channel s.ipcc c1.IPCC_MM_RELEASE_BUFFER_CHANNEL true⟩
        (acc ++ [b]) ys hloc1 hsh1 hdisj hnd
        (by simpa [c1_set_tx_channel, updB] using hbusy)
      simpa [c1_set_tx_channel] using hrec

theorem qLen_lt (q : SpscQueue) : qLen q < qN := by
  unfold qLen qN
  omega

/-- The ring buffer is full exactly at `N - 1` held elements. -/
theorem enqueue_none_iff (q : SpscQueue) (x : Nat) (hwf : qWF q = true) :
    enqueue q x = none ↔ qLen q = qN - 1 := by
  simp only [qWF, Bool.and_eq_true, decide_eq_true_eq] at hwf
  unfold enqueue qInc qLen qN at *
  constructor
  · intro h
    by_cases hc : (q.tail + 1) % 32 ≠ q.head
    · simp [hc] at h
    · omega
  · intro h
    have : ¬ ((q.tail + 1) % 32 ≠ q.head) := by omega
    simp [this]

/-- A successful enqueue appends the element and grows the length by one. -/
theorem enqueue_some_spec (q : SpscQueue) (x : Nat) (hwf : qWF q = true)
    (hlen : qLen q < qN - 1) :
    ∃ q', enqueue q x = some q' ∧ qWF q' = true ∧ qLen q' = qLen q + 1 ∧
      qContents q' = qContents q ++ [x] := by
  simp only [qWF, Bool.and_eq_true, decide_eq_true_eq] at hwf
  obtain ⟨hh, ht⟩ := hwf
  have hlq : qLen q = (q.tail + qN - q.head) % qN := rfl
  rw [hlq] at hlen
  have hcond : qInc q.tail ≠ q.head := by
    show (q.tail + 1) % qN ≠ q.head
    unfold qN at *
    omega
  refine ⟨⟨(fun i => if i = q.tail then x else q.buf i), q.head, qInc q.tail⟩,
    by simp [enqueue, hcond], ?_, ?_, ?_⟩
  · show (decide (q.head < qN) && decide ((q.tail + 1) % qN < qN)) = true
    simp only [Bool.and_eq_true, decide_eq_true_eq]
    unfold qN at *
    exact ⟨hh, by omega⟩
  · show ((q.tail + 1) % qN + qN - q.head) % qN = (q.tail + qN - q.head) % qN + 1
    unfold qN at *
    omega
  · have hL : qLen ⟨(fun i => if i = q.tail then x else q.buf i), q.head, qInc q.tail⟩ =
        qLen q + 1 := by
      show ((q.tail + 1) % qN + qN - q.head) % qN = (q.tail + qN - q.head) % qN + 1
      unfold qN at *
      omega
    unfold qContents
    rw [hL]
    rw [List.range_succ, List.map_append]
    congr 1
    · refine List.map_congr_left ?_
      intro i hi
      have hi' : i < qLen q := List.mem_range.mp hi
      rw [hlq] at hi'
      have hne : (q.head + i) % qN ≠ q.tail := by
        unfold qN at *
        omega
      show (if (q.head + i) % qN = q.tail then x else q.buf ((q.head + i) % qN)) =
        q.buf ((q.head + i) % qN)
      rw [if_neg hne]
    · have heq : (q.head + qLen q) % qN = q.tail := by
        rw [hlq]
        unfold qN at *
        omega
      show [if (q.head + qLen q) % qN = q.tail then x else q.buf ((q.head + qLen q) % qN)] = [x]
      rw [if_pos heq]

/-- The drain loop of `evt_handler` empties the shared event queue into the
software queue, preserving order, whenever the software queue has room. -/
theorem evt_handler_loop_spec :
    ∀ (xs : List Nat) (m : Mem) (q : SpscQueue) (fuel : Nat),
      IsList m addrEvtQueue xs →
      qWF q = true →
      qLen q + xs.length ≤ qN - 1 →
      xs.length + 1 ≤ fuel →
      ∃ m' q', evt_handler_loop fuel m q = .ok m' q' ∧
        IsList m' addrEvtQueue [] ∧ qWF q' = true ∧
        qContents q' = qContents q ++ xs := by
  intro xs
  induction xs with
  | nil =>
      intro m q fuel hl hwf _ hf
      obtain ⟨f, rfl⟩ : ∃ f, fuel = f + 1 := ⟨fuel - 1, by omega⟩
      have he : is_empty m addrEvtQueue = true := (is_empty_iff _ _ [] hl).mpr rfl
      exact ⟨m, q, by simp [evt_handler_loop, he], hl, hwf, by simp⟩
  | cons x t ih =>
      intro m q fuel hl hwf hcap hf
      obtain ⟨f, rfl⟩ : ∃ f, fuel = f + 1 := ⟨fuel - 1, by omega⟩
      have he : ¬ is_empty m addrEvtQueue = true := by
        rw [is_empty_iff _ _ (x :: t) hl]; simp
      obtain ⟨hout, hl1⟩ := remove_head_spec m addrEvtQueue x t hl
      obtain ⟨q', henq, hwf', hlen', hcont'⟩ :=
        enqueue_some_spec q ((remove_head m addrEvtQueue).2) hwf
          (by simp only [List.length_cons] at hcap; unfold qN at *; omega)
      obtain ⟨m'', q'', hrun, hempty, hwf'', hcont''⟩ :=
        ih (remove_head m addrEvtQueue).1 q' f hl1 hwf'
          (by simp only [List.length_cons] at hcap; unfold qN at *; omega)
          (by simp only [List.length_cons] at hf; omega)
      refine ⟨m'', q'', ?_, hempty, hwf'', ?_⟩
      · simp only [evt_handler_loop, if_neg he]
        rw [henq]
        exact hrun
      · rw [hcont'', hcont', hout]
        simp

/-- The transcribed bodies mean what the direct definitions mean (adequacy of
the syntactic model used for the critical-section claim). -/
theorem body_adequacy (m : Mem) (h n r : Nat) :
    execBody ⟨h, n, r⟩ init_head_body (m, none) = (init_head m h, none) ∧
    execBody ⟨h, n, r⟩ insert_head_body (m, none) = (insert_head m h n, none) ∧
    execBody ⟨h, n, r⟩ insert_tail_body (m, none) = (insert_tail m h n, none) ∧
    execBody ⟨h, n, r⟩ remove_node_body (m, none) = (remove_node m n, none) ∧
    execBody ⟨h, n, r⟩ remove_head_body (m, none) =
      ((remove_head m h).1, some (remove_head m h).2) ∧
    execBody ⟨h, n, r⟩ remove_tail_body (m, none) =
      ((remove_tail m h).1, some (remove_tail m h).2) ∧
    execBody ⟨h, n, r⟩ insert_node_after_body (m, none) = (insert_node_after m n r, none) ∧
    execBody ⟨h, n, r⟩ insert_node_before_body (m, none) = (insert_node_before m n r, none) := by
  refine ⟨rfl, rfl, rfl, rfl, rfl, rfl, rfl, rfl⟩

/-- Claim C10: calling `remove_head` on an empty list (`head.next = head`) is
a defined, total operation: it writes the head pointer itself into the out
parameter and leaves the list empty and well formed (`head.next = head.prev =
head`); in fact it leaves the whole memory pointwise unchanged. -/
theorem c10_remove_head_empty (m : Mem) (head : Nat) (h : m head = ⟨head, head⟩) :
    (remove_head m head).2 = head ∧
    (remove_head m head).1 head = ⟨head, head⟩ ∧
    ∀ x, (remove_head m head).1 x = m x := by
  refine ⟨?_, ?_, ?_⟩
  · simp [remove_head, h]
  · simp [remove_head, remove_node, setNext, setPrev, store, h]
  · intro x
    by_cases hx : x = head
    · subst hx
      simp [remove_head, remove_node, setNext, setPrev, store, h]
    · simp [remove_head, remove_node, setNext, setPrev, store, h, hx]

/-- Witness for C10 at a concrete empty list. -/
theorem c10_remove_head_empty_witness :
    c10demoMem 0 = ⟨0, 0⟩ ∧
    ((remove_head c10demoMem 0).2 = 0 ∧
     (remove_head c10demoMem 0).1 0 = ⟨0, 0⟩ ∧
     ∀ x, (remove_head c10demoMem 0).1 x = c10demoMem x) :=
  ⟨rfl, c10_remove_head_empty c10demoMem 0 rfl⟩

/-- Counterexample to claim C3: with the local free queue empty and the
release channel free, `free_buf_handler` still rings the release doorbell —
the source rings unconditionally after `send_free_buf`. -/
theorem c3_claim_refuted : ¬ claimC3 ⟨c3demoMem, ipccIdle⟩ 1 := by
  unfold claimC3
  intro h
  have := h (by decide)
  simp [free_buf_handler, send_free_buf, c1_set_flag_channel, c1_set_tx_channel,
    updB, updN, ipccIdle] at this

/-- Claim C3 amended: `free_buf_handler` clears the release channel's
transmit (busy) mark, runs `send_free_buf`, and then always rings the release
doorbell — also when `send_free_buf` moved nothing because the local queue was
empty. -/
theorem c3_amended (s : MmState) (fuel : Nat) :
    (free_buf_handler fuel s).ipcc.c1Tx c1.IPCC_MM_RELEASE_BUFFER_CHANNEL = false ∧
    (free_buf_handler fuel s).mem = send_free_buf fuel s.mem ∧
    (free_buf_handler fuel s).ipcc.c1Rings c1.IPCC_MM_RELEASE_BUFFER_CHANNEL =
      s.ipcc.c1Rings c1.IPCC_MM_RELEASE_BUFFER_CHANNEL + 1 ∧
    (free_buf_handler fuel s).ipcc.c1Flag c1.IPCC_MM_RELEASE_BUFFER_CHANNEL = true := by
  refine ⟨?_, rfl, ?_, ?_⟩
  · simp [free_buf_handler, c1_set_flag_channel, c1_set_tx_channel, updB, updN]
  · simp [free_buf_handler, c1_set_flag_channel, c1_set_tx_channel, updB, updN]
  · simp [free_buf_handler, c1_set_flag_channel, c1_set_tx_channel, updB, updN]

/-- Counterexample to claim C4: `send_cmd` copies `buf` to offset 0 of the
serial region — where the kind byte lives — and then overwrites that byte with
the tag, so `buf`'s first byte is lost; the region holds the tag followed by
`buf[1..]`, not by all of `buf`.  Concretely, after `send_cmd` of `[0xAA,
0xBB]` offset 1 holds `0xBB`, not `0xAA`. -/
theorem c4_claim_refuted : ¬ claimC4 c4demoState [0xAA, 0xBB] := by
  unfold claimC4
  intro h
  have := h.2.1 0 (by decide)
  simp [send_cmd, c4demoState, TL_BLECMD_PKT_TYPE] at this

/-- Claim C4 amended: after `send_cmd(buf)` (with `buf` fitting the serial
region), offset 0 of the serial region holds the kind tag
`TL_BLECMD_PKT_TYPE` — overwriting the first copied byte — offsets `1 ≤ i <
buf.len()` hold `buf[i]`, offsets past the copy are unchanged, and the
command doorbell has been rung exactly once. -/
theorem c4_amended (s : BleTxState) (buf : List Nat)
    (hfits : buf.length ≤ CMD_SERIAL_SIZE) :
    (send_cmd s buf).cmdSerial 0 = TL_BLECMD_PKT_TYPE ∧
    (∀ i, 0 < i → i < buf.length → (send_cmd s buf).cmdSerial i = buf.getD i 0) ∧
    (∀ i, 0 < i → buf.length ≤ i → (send_cmd s buf).cmdSerial i = s.cmdSerial i) ∧
    (send_cmd s buf).ipcc.c1Flag c1.IPCC_BLE_CMD_CHANNEL = true ∧
    (send_cmd s buf).ipcc.c1Rings c1.IPCC_BLE_CMD_CHANNEL =
      s.ipcc.c1Rings c1.IPCC_BLE_CMD_CHANNEL + 1 := by
  refine ⟨?_, ?_, ?_, ?_, ?_⟩
  · simp [send_cmd]
  · intro i h1 h2
    simp [send_cmd, Nat.pos_iff_ne_zero.mp h1, h2]
  · intro i h1 h2
    simp [send_cmd, Nat.pos_iff_ne_zero.mp h1, Nat.not_lt.mpr h2]
  · simp [send_cmd, c1_set_flag_channel, updB]
  · simp [send_cmd, c1_set_flag_channel, updN]

/-- Witness for the amended C4 at a concrete two-byte command. -/
theorem c4_amended_witness :
    ([0xAA, 0xBB] : List Nat).length ≤ CMD_SERIAL_SIZE ∧
    ((send_cmd c4demoState [0xAA, 0xBB]).cmdSerial 0 = TL_BLECMD_PKT_TYPE ∧
     (∀ i, 0 < i → i < ([0xAA, 0xBB] : List Nat).length →
       (send_cmd c4demoState [0xAA, 0xBB]).cmdSerial i = ([0xAA, 0xBB] : List Nat).getD i 0) ∧
     (∀ i, 0 < i → ([0xAA, 0xBB] : List Nat).length ≤ i →
       (send_cmd c4demoState [0xAA, 0xBB]).cmdSerial i = c4demoState.cmdSerial i) ∧
     (send_cmd c4demoState [0xAA, 0xBB]).ipcc.c1Flag c1.IPCC_BLE_CMD_CHANNEL = true ∧
     (send_cmd c4demoState [0xAA, 0xBB]).ipcc.c1Rings c1.IPCC_BLE_CMD_CHANNEL =
       c4demoState.ipcc.c1Rings c1.IPCC_BLE_CMD_CHANNEL + 1) :=
  ⟨by decide, c4_amended c4demoState [0xAA, 0xBB] (by decide)⟩

/-- Counterexample to claim C5: `heapless::spsc::Queue<EvtBox, 32>` keeps one
slot empty, so a queue holding 31 handles — fewer than 32 — already rejects an
enqueue. -/
theorem c5_claim_refuted : ¬ claimC5 := by
  intro h
  have := h c5fullQueue 0 (by decide) (by decide)
  simp [enqueue, qInc, qN, c5fullQueue] at this

/-- Claim C5 amended: the software queue holds up to 31 event handles
(`heapless::spsc::Queue<T, 32>` has capacity `N − 1`); below 31 an enqueue
succeeds, at 31 the enqueue is the overflow case, and `evt_handler` treats
overflow as fatal — the drain loop ends in the panic outcome instead of
dropping or rejecting the event. -/
theorem c5_amended :
    (∀ (q : SpscQueue) (x : Nat), qWF q = true →
      ((qLen q < qN - 1 → (enqueue q x).isSome = true) ∧
       (qLen q = qN - 1 → enqueue q x = none))) ∧
    evt_handler 1 c5demoMem c5fullQueue ipccIdle = .panicked := by
  constructor
  · intro q x hwf
    constructor
    · intro hlen
      obtain ⟨q', hq', _, _, _⟩ := enqueue_some_spec q x hwf hlen
      simp [hq']
    · intro hlen
      exact (enqueue_none_iff q x hwf).mpr hlen
  · rfl

/-- Witness for the amended C5: a queue holding a single handle accepts one
more. -/
theorem c5_amended_witness :
    qWF c5fullQueue = true ∧ qLen c5fullQueue = qN - 1 ∧
    enqueue c5fullQueue 7 = none :=
  ⟨by decide, by decide, (c5_amended.1 c5fullQueue 7 (by decide)).2 (by decide)⟩

/-- Counterexample to claim C9: `init_head` (lines 7–10 of
`unsafe_linked_list.rs`) stores through the head pointer with no
`cortex_m::interrupt::free` wrapper, unlike every other mutating operation. -/
theorem c9_claim_refuted : ¬ claimC9 := by
  intro h
  have := h init_head_body (by decide)
  simp [fullyMasked, init_head_body] at this

/-- Claim C9 amended: every mutating list operation except `init_head`
performs all of its stores inside a `cortex_m::interrupt::free` critical
section; `init_head`'s two stores run unmasked (it is the
publish-before-boot initialiser). -/
theorem c9_amended :
    ∀ b ∈ mutatingBodies, b ≠ init_head_body → fullyMasked b = true := by
  decide

/-- Witness for the amended C9 at `insert_head`. -/
theorem c9_amended_witness :
    insert_head_body ∈ mutatingBodies ∧ insert_head_body ≠ init_head_body ∧
    fullyMasked insert_head_body = true :=
  ⟨by decide, by decide, c9_amended insert_head_body (by decide) (by decide)⟩

/-- Counterexample to claim C1: after `tl_init` from reset, the HCI ACL data
buffer was never zeroed, `init_head` was never run on the system event queue
or the traces event queue, and the second-level tables other than the BLE and
memory-manager ones keep null pointer fields — so the claimed conjunction is
false at the one input `tl_init` ever receives. -/
theorem c1_claim_refuted : claimC1 (tl_init bootState) = false := by
  decide

/-- Claim C1 amended: after `tl_init` from reset, the Reference Table holds
the addresses of all ten second-level tables; the device-info, thread, sys,
traces, 802.15.4, zigbee, LLD-test and BLE-LLD tables are zeroed (pointer
fields null) and stay so; the BLE table points at the command buffer, the
status-event buffer, the event queue and the ACL buffer; the memory-manager
table points at the spare buffers, the event pool (size `POOL_SIZE`) and the
shared free queue, with a null traces pool; `init_head` has been run on the
BLE event queue and on both free-buffer queues — but not on the system event
queue or the traces event queue, which stay unwritten, as does the HCI ACL
data buffer; the other byte buffers are zeroed; the doorbell clock and BLE
event reception are enabled. -/
theorem c1_amended :
    (tl_init bootState).ref_table =
      some ⟨addrDeviceInfoTable, addrBleTable, addrThreadTable, addrSysTable,
        addrMemManagerTable, addrTracesTable, addrMac802_15_4Table, addrZigbeeTable,
        addrLldTestsTable, addrBleLldTable⟩ ∧
    (tl_init bootState).ble_table =
      some ⟨addrBleCmdBuffer, addrCsBuffer, addrEvtQueue, addrHciAclDataBuffer⟩ ∧
    (tl_init bootState).mem_manager_table =
      some ⟨addrBleSpareEvtBuf, addrSysSpareEvtBuf, addrEvtPool, POOL_SIZE,
        addrFreeBufQueue, 0, 0⟩ ∧
    (tl_init bootState).thread_table = some ⟨0, 0, 0, 0⟩ ∧
    (tl_init bootState).sys_table = some ⟨0, 0⟩ ∧
    (tl_init bootState).traces_table = some ⟨0⟩ ∧
    (tl_init bootState).mac_802_15_4_table = some ⟨0, 0, 0⟩ ∧
    (tl_init bootState).zigbee_table = some ⟨0, 0, 0⟩ ∧
    (tl_init bootState).lld_tests_table = some ⟨0, 0⟩ ∧
    (tl_init bootState).ble_lld_table = some ⟨0, 0⟩ ∧
    (tl_init bootState).device_info_table = BufSt.zeroed ∧
    headInitialized (tl_init bootState).evt_queue addrEvtQueue = true ∧
    headInitialized (tl_init bootState).free_buf_queue addrFreeBufQueue = true ∧
    headInitialized (tl_init bootState).local_free_buf_queue addrLocalFreeBufQueue = true ∧
    (tl_init bootState).system_evt_queue = none ∧
    (tl_init bootState).traces_evt_queue = none ∧
    (tl_init bootState).hci_acl_data_buffer = BufSt.uninit ∧
    (tl_init bootState).evt_pool = BufSt.zeroed ∧
    (tl_init bootState).sys_cmd_buffer = BufSt.zeroed ∧
    (tl_init bootState).sys_spare_evt_buf = BufSt.zeroed ∧
    (tl_init bootState).ble_spare_evt_buf = BufSt.zeroed ∧
    (tl_init bootState).cs_buffer = BufSt.zeroed ∧
    (tl_init bootState).ble_cmd_buffer = BufSt.zeroed ∧
    (tl_init bootState).ipcc_clock_enabled = true ∧
    (tl_init bootState).ble_event_rx_enabled = true := by
  decide

/-- Claim C6: every legal finite sequence of insert/remove operations on a
list created by `init_head` — removals only on non-empty lists, inserted nodes
belonging to no other list, splice references being list members — keeps the
list circular and doubly consistent (for every reachable node `n`,
`next(prev(n)) = n` and `prev(next(n)) = n`), and `is_empty` holds exactly
when `get_size` returns 0. -/
theorem c6_invariants (m0 : Mem) (head : Nat) (ops : List LLOp)
    (hleg : legalB head [] ops = true) :
    IsList (memExec head (init_head m0 head) ops) head (absExec head [] ops) ∧
    (∀ fuel, (absExec head [] ops).length + 1 ≤ fuel →
      ∀ n ∈ reachable (memExec head (init_head m0 head) ops) head fuel,
        (memExec head (init_head m0 head) ops
          ((memExec head (init_head m0 head) ops n).prev)).next = n ∧
        (memExec head (init_head m0 head) ops
          ((memExec head (init_head m0 head) ops n).next)).prev = n) ∧
    (∀ fuel, (absExec head [] ops).length + 1 ≤ fuel →
      (is_empty (memExec head (init_head m0 head) ops) head = true ↔
        get_size (memExec head (init_head m0 head) ops) head fuel = 0)) := by
  have hIs := memExec_spec head ops (init_head m0 head) [] (init_head_spec m0 head) hleg
  refine ⟨hIs, ?_, ?_⟩
  · intro fuel hf n hn
    rw [reachable_eq _ head (absExec head [] ops) fuel hIs hf] at hn
    exact IsList_backforth _ head (absExec head [] ops) hIs n hn
  · intro fuel hf
    rw [get_size_eq _ head (absExec head [] ops) fuel hIs hf,
      is_empty_iff _ head (absExec head [] ops) hIs]
    simp [List.length_eq_zero]

/-- Witness for C6 at a concrete legal operation sequence. -/
theorem c6_invariants_witness :
    legalB 0 [] c6demoOps = true ∧
    (IsList (memExec 0 (init_head c6demoMem 0) c6demoOps) 0 (absExec 0 [] c6demoOps) ∧
     (∀ fuel, (absExec 0 [] c6demoOps).length + 1 ≤ fuel →
       ∀ n ∈ reachable (memExec 0 (init_head c6demoMem 0) c6demoOps) 0 fuel,
         (memExec 0 (init_head c6demoMem 0) c6demoOps
           ((memExec 0 (init_head c6demoMem 0) c6demoOps n).prev)).next = n ∧
         (memExec 0 (init_head c6demoMem 0) c6demoOps
           ((memExec 0 (init_head c6demoMem 0) c6demoOps n).next)).prev = n) ∧
     (∀ fuel, (absExec 0 [] c6demoOps).length + 1 ≤ fuel →
       (is_empty (memExec 0 (init_head c6demoMem 0) c6demoOps) 0 = true ↔
         get_size (memExec 0 (init_head c6demoMem 0) c6demoOps) 0 fuel = 0))) :=
  ⟨by decide, c6_invariants c6demoMem 0 c6demoOps (by decide)⟩

/-- Claim C8: inserting N distinct nodes into a freshly initialised list and
then removing N returns the list to empty; with `insert_tail` + `remove_head`
the removal order equals the insertion order (FIFO), and with `insert_head` +
`remove_head` it is the reverse (LIFO). -/
theorem c8_roundtrip (m0 : Mem) (head : Nat) (ns : List Nat)
    (hnd : (head :: ns).Nodup) :
    ((removeAllHead (insertAllTail (init_head m0 head) head ns) head ns.length).2 = ns ∧
     is_empty (removeAllHead (insertAllTail (init_head m0 head) head ns) head ns.length).1
       head = true) ∧
    ((removeAllHead (insertAllHead (init_head m0 head) head ns) head ns.length).2 =
       ns.reverse ∧
     is_empty (removeAllHead (insertAllHead (init_head m0 head) head ns) head ns.length).1
       head = true) := by
  constructor
  · have h1 : IsList (insertAllTail (init_head m0 head) head ns) head ns := by
      have := insertAllTail_spec head ns (init_head m0 head) [] (init_head_spec m0 head)
        (by simpa using hnd)
      simpa using this
    obtain ⟨h2, h3⟩ := removeAllHead_spec head ns _ h1
    exact ⟨h2, (is_empty_iff _ head [] h3).mpr rfl⟩
  · have h1 : IsList (insertAllHead (init_head m0 head) head ns) head ns.reverse := by
      have := insertAllHead_spec head ns (init_head m0 head) [] (init_head_spec m0 head)
        (by simpa using hnd)
      simpa using this
    have hlen : ns.length = ns.reverse.length := (List.length_reverse ns).symm
    rw [hlen]
    obtain ⟨h2, h3⟩ := removeAllHead_spec head ns.reverse _ h1
    exact ⟨h2, (is_empty_iff _ head [] h3).mpr rfl⟩

/-- Witness for C8 at three concrete nodes. -/
theorem c8_roundtrip_witness :
    ((0 : Nat) :: [1, 2, 3]).Nodup ∧
    (((removeAllHead (insertAllTail (init_head c6demoMem 0) 0 [1, 2, 3]) 0
        ([1, 2, 3] : List Nat).length).2 = [1, 2, 3] ∧
      is_empty (removeAllHead (insertAllTail (init_head c6demoMem 0) 0 [1, 2, 3]) 0
        ([1, 2, 3] : List Nat).length).1 0 = true) ∧
     ((removeAllHead (insertAllHead (init_head c6demoMem 0) 0 [1, 2, 3]) 0
        ([1, 2, 3] : List Nat).length).2 = ([1, 2, 3] : List Nat).reverse ∧
      is_empty (removeAllHead (insertAllHead (init_head c6demoMem 0) 0 [1, 2, 3]) 0
        ([1, 2, 3] : List Nat).length).1 0 = true)) :=
  ⟨by decide, c8_roundtrip c6demoMem 0 [1, 2, 3] (by decide)⟩

/-- Claim C7: `evt_handler` on a shared event queue holding exactly three
nodes, with at least three free software-queue slots, ends with the three
nodes appended to the software queue in their original order, the shared
queue empty, and the BLE event-channel flag cleared. -/
theorem c7_drain_three (m : Mem) (q : SpscQueue) (ipcc : IpccSt) (a b c : Nat) (fuel : Nat)
    (hl : IsList m addrEvtQueue [a, b, c])
    (hwf : qWF q = true)
    (hroom : qLen q + 3 ≤ qN - 1)
    (hfuel : 4 ≤ fuel) :
    ∃ m' q', evt_handler fuel m q ipcc =
        .ok m' q' (c1_clear_flag_channel ipcc c2.IPCC_BLE_EVENT_CHANNEL) ∧
      qContents q' = qContents q ++ [a, b, c] ∧
      IsList m' addrEvtQueue [] ∧
      (c1_clear_flag_channel ipcc c2.IPCC_BLE_EVENT_CHANNEL).c2Flag
        c2.IPCC_BLE_EVENT_CHANNEL = false := by
  obtain ⟨m', q', hrun, hempty, hwf', hcont⟩ :=
    evt_handler_loop_spec [a, b, c] m q fuel hl hwf (by simpa using hroom)
      (by simpa using hfuel)
  refine ⟨m', q', ?_, hcont, hempty, ?_⟩
  · simp [evt_handler, hrun]
  · simp [c1_clear_flag_channel, updB]

/-- Witness for C7 at a concrete three-node shared queue. -/
theorem c7_drain_three_witness :
    IsList c7demoMem addrEvtQueue [50, 51, 52] ∧
    qWF c7emptyQueue = true ∧
    qLen c7emptyQueue + 3 ≤ qN - 1 ∧
    (∃ m' q', evt_handler 4 c7demoMem c7emptyQueue c7demoIpcc =
        .ok m' q' (c1_clear_flag_channel c7demoIpcc c2.IPCC_BLE_EVENT_CHANNEL) ∧
      qContents q' = qContents c7emptyQueue ++ [50, 51, 52] ∧
      IsList m' addrEvtQueue [] ∧
      (c1_clear_flag_channel c7demoIpcc c2.IPCC_BLE_EVENT_CHANNEL).c2Flag
        c2.IPCC_BLE_EVENT_CHANNEL = false) :=
  ⟨by decide, by decide, by decide,
   c7_drain_three c7demoMem c7emptyQueue c7demoIpcc 50 51 52 4 (by decide) (by decide)
     (by decide) (by decide)⟩

/-- Claim C2: with the release channel busy, `evt_drop` on k ≥ 1 distinct
buffers rings no doorbell; when the channel frees and `free_buf_handler`
runs, exactly one release-doorbell ring occurs, and each of the k buffers
then sits exactly once on the shared free-buffer queue. -/
theorem c2_coalescing (s : MmState) (bufs ys : List Nat) (dropFuel fuel : Nat)
    (hk : 1 ≤ bufs.length)
    (hloc : IsList s.mem addrLocalFreeBufQueue [])
    (hsh : IsList s.mem addrFreeBufQueue ys)
    (hdisj : List.Disjoint (addrLocalFreeBufQueue :: bufs) (addrFreeBufQueue :: ys))
    (hnd : (addrLocalFreeBufQueue :: bufs).Nodup)
    (hbusy : s.ipcc.c1Flag c1.IPCC_MM_RELEASE_BUFFER_CHANNEL = true)
    (hfuel : bufs.length ≤ fuel) :
    (bufs.foldl (evt_drop dropFuel) s).ipcc.c1Rings c1.IPCC_MM_RELEASE_BUFFER_CHANNEL =
      s.ipcc.c1Rings c1.IPCC_MM_RELEASE_BUFFER_CHANNEL ∧
    (free_buf_handler fuel
        ⟨(bufs.foldl (evt_drop dropFuel) s).mem,
          peer_clear_flag (bufs.foldl (evt_drop dropFuel) s).ipcc
            c1.IPCC_MM_RELEASE_BUFFER_CHANNEL⟩).ipcc.c1Rings
        c1.IPCC_MM_RELEASE_BUFFER_CHANNEL =
      s.ipcc.c1Rings c1.IPCC_MM_RELEASE_BUFFER_CHANNEL + 1 ∧
    IsList (free_buf_handler fuel
        ⟨(bufs.foldl (evt_drop dropFuel) s).mem,
          peer_clear_flag (bufs.foldl (evt_drop dropFuel) s).ipcc
            c1.IPCC_MM_RELEASE_BUFFER_CHANNEL⟩).mem
      addrFreeBufQueue (ys ++ bufs) ∧
    (∀ b ∈ bufs, (ys ++ bufs).count b = 1) := by
  obtain ⟨hloc', hsh', hflag, hrings, _⟩ :=
    evt_drop_busy_fold dropFuel bufs s [] ys hloc hsh (by simpa using hdisj)
      (by simpa using hnd) hbusy
  simp only [List.nil_append] at hloc'
  refine ⟨congrFun hrings _, ?_, ?_, ?_⟩
  · show (c1_set_flag_channel
        (c1_set_tx_channel
          (peer_clear_flag (bufs.foldl (evt_drop dropFuel) s).ipcc
            c1.IPCC_MM_RELEASE_BUFFER_CHANNEL)
          c1.IPCC_MM_RELEASE_BUFFER_CHANNEL false)
        c1.IPCC_MM_RELEASE_BUFFER_CHANNEL).c1Rings c1.IPCC_MM_RELEASE_BUFFER_CHANNEL =
      s.ipcc.c1Rings c1.IPCC_MM_RELEASE_BUFFER_CHANNEL + 1
    simp [c1_set_flag_channel, c1_set_tx_channel, peer_clear_flag, updN, updB]
    rw [congrFun hrings]
  · have hsfb := send_free_buf_spec bufs
      (bufs.foldl (evt_drop dropFuel) s).mem ys fuel hloc' hsh' hdisj hfuel
    exact hsfb.2
  · intro b hb
    rw [List.count_append]
    have h0 : ys.count b = 0 := by
      rw [List.count_eq_zero]
      intro hby
      exact (hdisj (List.mem_cons_of_mem _ hb)) (List.mem_cons_of_mem _ hby)
    have h1 : bufs.count b = 1 :=
      List.count_eq_one_of_mem (List.nodup_cons.mp hnd).2 hb
    rw [h0, h1]

/-- Witness for C2 at two concrete buffers dropped while the release channel
is busy. -/
theorem c2_coalescing_witness :
    1 ≤ ([100, 101] : List Nat).length ∧
    IsList c2demoMem addrLocalFreeBufQueue [] ∧
    IsList c2demoMem addrFreeBufQueue [] ∧
    (addrLocalFreeBufQueue :: [100, 101]).Nodup ∧
    c2demoIpcc.c1Flag c1.IPCC_MM_RELEASE_BUFFER_CHANNEL = true ∧
    (([100, 101] : List Nat).foldl (evt_drop 3) ⟨c2demoMem, c2demoIpcc⟩).ipcc.c1Rings
        c1.IPCC_MM_RELEASE_BUFFER_CHANNEL =
      (⟨c2demoMem, c2demoIpcc⟩ : MmState).ipcc.c1Rings c1.IPCC_MM_RELEASE_BUFFER_CHANNEL ∧
    (free_buf_handler 2
        ⟨(([100, 101] : List Nat).foldl (evt_drop 3) ⟨c2demoMem, c2demoIpcc⟩).mem,
          peer_clear_flag
            (([100, 101] : List Nat).foldl (evt_drop 3) ⟨c2demoMem, c2demoIpcc⟩).ipcc
            c1.IPCC_MM_RELEASE_BUFFER_CHANNEL⟩).ipcc.c1Rings
        c1.IPCC_MM_RELEASE_BUFFER_CHANNEL =
      (⟨c2demoMem, c2demoIpcc⟩ : MmState).ipcc.c1Rings
        c1.IPCC_MM_RELEASE_BUFFER_CHANNEL + 1 ∧
    IsList (free_buf_handler 2
        ⟨(([100, 101] : List Nat).foldl (evt_drop 3) ⟨c2demoMem, c2demoIpcc⟩).mem,
          peer_clear_flag
            (([100, 101] : List Nat).foldl (evt_drop 3) ⟨c2demoMem, c2demoIpcc⟩).ipcc
            c1.IPCC_MM_RELEASE_BUFFER_CHANNEL⟩).mem
      addrFreeBufQueue ([] ++ [100, 101]) ∧
    (∀ b ∈ ([100, 101] : List Nat), (([] : List Nat) ++ [100, 101]).count b = 1) := by
  have hdisj : List.Disjoint (addrLocalFreeBufQueue :: [100, 101])
      (addrFreeBufQueue :: ([] : List Nat)) := by
    intro z hz hz'
    simp only [List.mem_cons, List.not_mem_nil, or_false] at hz hz'
    rcases hz with h | h | h <;> simp [h, addrLocalFreeBufQueue, addrFreeBufQueue] at hz'
  have := c2_coalescing ⟨c2demoMem, c2demoIpcc⟩ [100, 101] [] 3 2
    (by decide) (by decide) (by decide) hdisj (by decide) (by decide) (by decide)
  exact ⟨by decide, by decide, by decide, by decide, by decide,
    this.1, this.2.1, this.2.2.1, this.2.2.2⟩
